import Mathlib

/-!
# ActuatorHoming (Smoothieware, `src/modules/tools/actuatorhoming/ActuatorHoming.cpp`)

A shallow embedding of the homing module and theorems about it.

Conventions of the embedding

* A `std::string` is the list of its bytes, each byte the value of an
  `unsigned char` (plain `char` is unsigned on the ARM EABI the firmware is
  built for); a byte is a `Nat` below 256.
* `uint8_t` arithmetic is `Nat` arithmetic with an explicit `% 256`.
* A `float` is embedded as the rational number it denotes.  Comparisons are
  exact.  In `home` the products and the quotient are rounded to binary32
  (`round32`); in `load_config` the quotients are kept exact.
* The kernel singleton (`THEKERNEL`: halt flag, actuators, stream output, robot)
  and the endstop pins are the environment.  Every observation of the
  environment (`is_halted()`, `Pin::get()`) advances a poll counter, and the
  environment answers as a function of that counter.  Every call on an
  external collaborator is recorded, in order, in a trace of events.
-/

namespace Smoothie

/-! ## Homing order (`load_config`, lines 177-191) -/

/-- C `toupper` in the "C" locale, on a byte value. -/
def toupper (c : Nat) : Nat :=
  if 97 ≤ c ∧ c ≤ 122 then c - 32 else c

/-- The line `uint8_t i = toupper(c) - 'X';`: the subtraction is done in `int`
and the result is reduced modulo 256 by the conversion to `uint8_t`. -/
def axis_index (c : Nat) : Nat :=
  (((toupper c : Int) - 88) % 256).toNat

/-- The loop `for(auto c : order)` of `load_config`, with the loop variables
`shift` and `homing_order` as arguments.  A bad character zeroes the order and
leaves the loop. -/
def order_loop : List Nat → Nat → Nat → Nat
  | [], _, homing_order => homing_order
  | c :: rest, shift, homing_order =>
    let i := axis_index c
    if i > 2 then 0
    else order_loop rest (shift + 2) ((homing_order ||| (i <<< shift)) % 256)

/-- The homing order computed by `load_config` from the configured order
string: `homing_order = 0; if(order.size() == 3) { ... }`. -/
def parse_homing_order (order : List Nat) : Nat :=
  if order.length = 3 then order_loop order 0 0 else 0

/-- The bytes of an ASCII string literal. -/
def cstr (s : String) : List Nat :=
  s.toList.map Char.toNat

/-- The byte is one of the axis letters `X`, `Y`, `Z`, `x`, `y`, `z`. -/
def is_axis_letter (c : Nat) : Prop :=
  c = 88 ∨ c = 89 ∨ c = 90 ∨ c = 120 ∨ c = 121 ∨ c = 122

instance (c : Nat) : Decidable (is_axis_letter c) := by
  unfold is_axis_letter; infer_instance

/-- Every two-bit field of the packed order `m` is an axis index 0, 1 or 2. -/
def valid_order (m : Nat) : Prop :=
  ∀ i, (m >>> (2 * i)) &&& 3 ≤ 2

/-! ## Controller state, environment and trace -/

/-- The homing states, in the order of the anonymous `enum` of the source
(`MOVING_TO_ENDSTOP_FAST` is 0, `NOT_HOMING` is 3). -/
inductive Status where
  | MOVING_TO_ENDSTOP_FAST
  | MOVING_BACK
  | MOVING_TO_ENDSTOP_SLOW
  | NOT_HOMING
  | BACK_OFF_HOME
  | MOVE_TO_ORIGIN
  | LIMIT_TRIGGERED
  deriving DecidableEq

/-- The data members of `class ActuatorHoming` (`ActuatorHoming.h`), the six
endstop pins apart: those are read through the environment.  Arrays are
functions of the index. -/
structure ActuatorHoming where
  homing_position : Nat → ℚ
  homing_order : Nat
  home_direction : Nat → Bool
  retract_mm : Nat → ℚ
  fast_rates : Nat → ℚ
  slow_rates : Nat → ℚ
  status : Status

/-- The environment of the module: what `THEKERNEL` and the pins answer.
`is_halted t` is the halt flag seen by the poll number `t`, `pin_get i t` the
value `pins[i].get()` returns at poll number `t`, `steps_per_mm a` is
`STEPS_PER_MM(a)`. -/
structure Kernel where
  is_halted : Nat → Bool
  pin_get : Nat → Nat → Bool
  steps_per_mm : Nat → ℚ
  is_grbl_mode : Bool

/-- A call on an external collaborator, or the entry of `home()`. -/
inductive Event where
  | printf (fmt : String) (args : List Nat)
  | streams_printf (fmt : String)
  | wait_for_idle
  | home (axes_to_move : Nat)
  | set_direction (c : Nat) (dir : Bool)
  | pin_get (index : Nat)
  | manual_step (c : Nat) (dir : Bool)
  | safe_delay_us (us : Nat)
  | reset_actuator_position (p0 p1 p2 : ℚ)
  deriving DecidableEq

/-- The controller together with the number of environment polls made so far
and the trace of events so far, oldest first.  Each event of the trace is
stamped with the number of polls made before it. -/
structure World where
  self : ActuatorHoming
  polls : Nat
  trace : List (Nat × Event)

/-- Append one event to the trace, stamped with the current poll count. -/
def World.emit (w : World) (e : Event) : World :=
  { w with trace := w.trace ++ [(w.polls, e)] }

/-- One observation of the environment has been made. -/
def World.tick (w : World) : World :=
  { w with polls := w.polls + 1 }

/-- The constructor `ActuatorHoming::ActuatorHoming()` sets `status` and leaves
the other members as they are. -/
def ActuatorHoming.init (self : ActuatorHoming) : ActuatorHoming :=
  { self with status := Status.NOT_HOMING }

/-! ## `load_config` (lines 132-192) -/

/-- What `THEKERNEL->config->value(key)` answers, by the name of the key:
`number key` is `as_number()` of the value when the key is set, `string key`
is `as_string()` of the value when the key is set, and both are `none` when
the key is not set.  `get_checksum` is the string checksum of `utils.h`. -/
structure Config where
  number : String → Option ℚ
  string : String → Option (List Nat)
  get_checksum : List Nat → Nat

/-- The chain `value(key)->by_default(dflt)->as_number()`. -/
def Config.as_number (cfg : Config) (key : String) (dflt : ℚ) : ℚ :=
  (cfg.number key).getD dflt

/-- The chain `value(key)->by_default(dflt)->as_string()`. -/
def Config.as_string (cfg : Config) (key : String) (dflt : List Nat) : List Nat :=
  (cfg.string key).getD dflt

/-- A three-element array given by its elements; other indices keep `old`. -/
def array3 {α : Type} (a0 a1 a2 : α) (old : Nat → α) : Nat → α :=
  fun i => if i = 0 then a0 else if i = 1 then a1 else if i = 2 then a2 else old i

/-- The function `ActuatorHoming::load_config()`, the binding of the six pins
apart (the pins are read through the environment). -/
def ActuatorHoming.load_config (k : Kernel) (cfg : Config) (self : ActuatorHoming) :
    ActuatorHoming :=
  -- the old values in steps
  let fast0 := cfg.as_number "alpha_fast_homing_rate" 4000 / k.steps_per_mm 0
  let fast1 := cfg.as_number "beta_fast_homing_rate" 4000 / k.steps_per_mm 1
  let fast2 := cfg.as_number "gamma_fast_homing_rate" 6400 / k.steps_per_mm 2
  let slow0 := cfg.as_number "alpha_slow_homing_rate" 2000 / k.steps_per_mm 0
  let slow1 := cfg.as_number "beta_slow_homing_rate" 2000 / k.steps_per_mm 1
  let slow2 := cfg.as_number "gamma_slow_homing_rate" 3200 / k.steps_per_mm 2
  let retract0 := cfg.as_number "alpha_homing_retract" 400 / k.steps_per_mm 0
  let retract1 := cfg.as_number "beta_homing_retract" 400 / k.steps_per_mm 1
  let retract2 := cfg.as_number "gamma_homing_retract" 1600 / k.steps_per_mm 2
  -- the newer mm based values, defaulting to the ones above
  let fast_rates := array3
    (cfg.as_number "alpha_fast_homing_rate_mm_s" fast0)
    (cfg.as_number "beta_fast_homing_rate_mm_s" fast1)
    (cfg.as_number "gamma_fast_homing_rate_mm_s" fast2) self.fast_rates
  let slow_rates := array3
    (cfg.as_number "alpha_slow_homing_rate_mm_s" slow0)
    (cfg.as_number "beta_slow_homing_rate_mm_s" slow1)
    (cfg.as_number "gamma_slow_homing_rate_mm_s" slow2) self.slow_rates
  let retract_mm := array3
    (cfg.as_number "alpha_homing_retract_mm" retract0)
    (cfg.as_number "beta_homing_retract_mm" retract1)
    (cfg.as_number "gamma_homing_retract_mm" retract2) self.retract_mm
  -- homing direction: true is home to min, false is home to max
  let home_to_max_checksum := cfg.get_checksum (cstr "home_to_max")
  let dir0 := decide (cfg.get_checksum
    (cfg.as_string "alpha_homing_direction" (cstr "home_to_min")) ≠ home_to_max_checksum)
  let dir1 := decide (cfg.get_checksum
    (cfg.as_string "beta_homing_direction" (cstr "home_to_min")) ≠ home_to_max_checksum)
  let dir2 := decide (cfg.get_checksum
    (cfg.as_string "gamma_homing_direction" (cstr "home_to_min")) ≠ home_to_max_checksum)
  let homing_position := array3
    (if dir0 then cfg.as_number "alpha_min" 0 else cfg.as_number "alpha_max" 200)
    (if dir1 then cfg.as_number "beta_min" 0 else cfg.as_number "beta_max" 200)
    (if dir2 then cfg.as_number "gamma_min" 0 else cfg.as_number "gamma_max" 200)
    self.homing_position
  { self with
    homing_position := homing_position
    homing_order := parse_homing_order (cfg.as_string "homing_order" [])
    home_direction := array3 dir0 dir1 dir2 self.home_direction
    retract_mm := retract_mm
    fast_rates := fast_rates
    slow_rates := slow_rates }

/-! ## `home` (lines 194-235) -/

/-- The test `( axes_to_move >> c) & 1`. -/
def axis_selected (axes_to_move c : Nat) : Bool :=
  (axes_to_move >>> c) &&& 1 != 0

/-! ### Binary32 arithmetic

The three `float` operations of `home` whose rounding matters (the two
products and the quotient of lines 215-217) are computed in binary32: the
exact result is rounded to the nearest binary32 value, ties to even.  A
value is `some q` for the finite number `q`, and `none` for an infinity. -/

/-- The search for the unit in the last place: `u` is the candidate, halved
until `u * 2^23` is at most the magnitude `a`, at most `n` times. -/
def ulp_search : Nat → ℚ → ℚ → ℚ
  | 0, u, _ => u
  | n + 1, u, a => if u * 8388608 ≤ a then u else ulp_search n (u / 2) a

/-- The unit in the last place of binary32 at the magnitude `a`: the power of
two `2^j`, from `2^104` down to `2^-149`, with `2^j * 2^23 ≤ a < 2^j * 2^24`
for a normal `a`, and `2^-149` below the normal range. -/
def ulp32 (a : ℚ) : ℚ :=
  ulp_search 253 20282409603651670423947251286016 a

/-- The integer nearest to the non-negative `t`, the even one of the two on a
tie. -/
def round_half_even (t : ℚ) : Nat :=
  if t - ⌊t⌋₊ < 1 / 2 then ⌊t⌋₊
  else if 1 / 2 < t - ⌊t⌋₊ then ⌊t⌋₊ + 1
  else if ⌊t⌋₊ % 2 = 0 then ⌊t⌋₊ else ⌊t⌋₊ + 1

/-- The multiple of the unit in the last place nearest to the magnitude `a`,
ties to even. -/
def round32_mag (a : ℚ) : ℚ :=
  (round_half_even (a / ulp32 a) : ℚ) * ulp32 a

/-- The binary32 value nearest to `q`, ties to even; `none` when the rounded
magnitude reaches `2^128`, where binary32 gives an infinity. -/
def round32 (q : ℚ) : Option ℚ :=
  if 340282366920938463463374607431768211456 ≤ round32_mag |q| then none
  else if q < 0 then some (-round32_mag |q|)
  else some (round32_mag |q|)

/-- The binary32 product `x * y` of two finite values. -/
def fmul32 (x y : ℚ) : Option ℚ :=
  round32 (x * y)

/-- The binary32 quotient `x / y` of a finite, non-zero `x` by `y`: zero when
`y` is an infinity, an infinity when `y` is zero. -/
def fdiv32 (x : ℚ) (y : Option ℚ) : Option ℚ :=
  match y with
  | none => some 0
  | some d => if d = 0 then none else round32 (x / d)

/-- Truncation toward zero. -/
def truncate (q : ℚ) : Int :=
  if 0 ≤ q then ⌊q⌋ else ⌈q⌉

/-- Conversion of a `float` to the 32-bit `int`: truncation toward zero.  For
an infinity, and when the truncated value is outside the range of `int`, the
conversion is undefined in C++; the model takes the value `-2^31` that the
conversion instruction of x86 gives, so that no iteration is then run. -/
def float_to_int (x : Option ℚ) : Int :=
  match x with
  | none => -2147483648
  | some q =>
    if -2147483648 ≤ truncate q ∧ truncate q ≤ 2147483647 then truncate q else -2147483648

/-- Conversion of a `float` to `uint32_t`: truncation toward zero.  Outside
the range of `uint32_t` the conversion is undefined in C++; the model reduces
a finite value modulo 2^32 and takes 0 for an infinity. -/
def float_to_uint32 (x : Option ℚ) : Nat :=
  match x with
  | none => 0
  | some q => (truncate q % 4294967296).toNat

/-- The value of `uint32_t delayus = 1000000.0F / sps` with
`float sps = stepPermm * fastSpeed` (lines 215 and 217). -/
def delayus (stepPermm fastSpeed : ℚ) : Nat :=
  float_to_uint32 (fdiv32 1000000 (fmul32 stepPermm fastSpeed))

/-- The body of the first loop over `c` (lines 202-210), for one `c`; the
loop variables are `fastSpeed` and `stepPermm`. -/
def home_setup (k : Kernel) (axes_to_move : Nat) (st : World × ℚ × ℚ) (c : Nat) :
    World × ℚ × ℚ :=
  if axis_selected axes_to_move c then
    let w := st.1.emit (Event.set_direction c (st.1.self.home_direction c))
    let fastSpeed :=
      if st.2.1 = 0 ∨ w.self.fast_rates c < st.2.1 then w.self.fast_rates c else st.2.1
    let stepPermm :=
      if st.2.2 = 0 ∨ st.2.2 > k.steps_per_mm c then k.steps_per_mm c else st.2.2
    (w, fastSpeed, stepPermm)
  else st

/-- The body of the loop over `c` inside one iteration of the fast approach
(lines 223-230), for one `c`; the loop variable is `movedAxis`.  The pin read
is `pins[c + 3*(int)!home_direction[c]]`. -/
def fast_axis (k : Kernel) (axes_to_move : Nat) (st : World × Bool) (c : Nat) :
    World × Bool :=
  if axis_selected axes_to_move c then
    let index := c + 3 * (if st.1.self.home_direction c then 0 else 1)
    let level := k.pin_get index st.1.polls
    let w := (st.1.emit (Event.pin_get index)).tick
    if !level then
      (w.emit (Event.manual_step c (w.self.home_direction c)), true)
    else (w, st.2)
  else st

/-- The loop `for(int s = 0 ; s < steps && movedAxis ; s++)` of the fast
approach (lines 219-233).  The first argument is `steps - s`. -/
def fast_loop (k : Kernel) (axes_to_move delay : Nat) : Nat → Bool → World → World
  | 0, _, w => w
  | n + 1, movedAxis, w =>
    if !movedAxis then w
    else
      let halted := k.is_halted w.polls
      let w1 := w.tick
      if halted then w1
      else
        let st := [0, 1, 2].foldl (fast_axis k axes_to_move) (w1, false)
        fast_loop k axes_to_move delay n st.2 (st.1.emit (Event.safe_delay_us delay))

/-- The function `ActuatorHoming::home(char axes_to_move, Gcode* gcode)`, up to the unconditional
`return;` of line 235 (the statements after it are never executed). -/
def ActuatorHoming.home (k : Kernel) (axes_to_move : Nat) (w : World) : World :=
  let w0 := w.emit (Event.home axes_to_move)
  let halted := k.is_halted w0.polls
  let w1 := w0.tick
  if halted then w1
  else
    let st := [0, 1, 2].foldl (home_setup k axes_to_move) (w1, 0, 0)
    let fastSpeed := st.2.1
    let stepPermm := st.2.2
    let w2 : World :=
      { st.1 with self := { st.1.self with status := Status.MOVING_TO_ENDSTOP_FAST } }
    let steps := float_to_int (fmul32 10000000 stepPermm)
    fast_loop k axes_to_move (delayus stepPermm fastSpeed) steps.toNat true w2

/-! ## `process_home_command` (lines 297-334) and the status query -/

/-- The loop `for (uint8_t m = homing_order; m != 0; m >>= 2)` (lines 309-315).
The first argument bounds the number of iterations: a `uint8_t` has four
two-bit fields, so four iterations always exhaust `m` (`home_in_order_uint8`
below). -/
def home_in_order (k : Kernel) : Nat → Nat → World → World
  | 0, _, w => w
  | n + 1, m, w =>
    if m = 0 then w
    else
      let a := 1 <<< (m &&& 3)
      let w1 := ActuatorHoming.home k a w
      let w2 := w1.emit (Event.printf "Homing %d \r\n" [a])
      let halted := k.is_halted w2.polls
      let w3 := w2.tick
      if halted then w3
      else home_in_order k n (m >>> 2) w3

/-- The function `ActuatorHoming::process_home_command(Gcode* gcode)`. -/
def ActuatorHoming.process_home_command (k : Kernel) (w : World) : World :=
  let w0 := (w.emit (Event.printf "Start homing\r\n" [])).emit Event.wait_for_idle
  let w1 :=
    if w0.self.homing_order ≠ 0 then
      home_in_order k 4 (w0.self.homing_order % 256) w0
    else
      ActuatorHoming.home k 7 (w0.emit (Event.printf "Homing all\r\n" []))
  let halted := k.is_halted w1.polls
  let w2 := w1.tick
  if halted then
    if !k.is_grbl_mode then
      w2.emit (Event.streams_printf "Homing cycle aborted by kill\n")
    else w2
  else
    w2.emit (Event.reset_actuator_position (w2.self.homing_position 0)
      (w2.self.homing_position 1) (w2.self.homing_position 2))

/-- The answer `*homing = this->status != NOT_HOMING` of `on_get_public_data`
to the homing-status request. -/
def ActuatorHoming.on_get_public_data (self : ActuatorHoming) : Bool :=
  self.status != Status.NOT_HOMING

/-! ## `on_gcode_received` (lines 337-343) -/

/-- What the module reads of a `Gcode`: `has_g` and `g`.  The field
`has_letter c` tells whether the command carries the letter `c`; the module
never reads it. -/
structure Gcode where
  has_g : Bool
  g : Nat
  has_letter : Nat → Bool

/-- The function `ActuatorHoming::on_gcode_received(void *argument)`. -/
def ActuatorHoming.on_gcode_received (k : Kernel) (gcode : Gcode) (w : World) : World :=
  if gcode.has_g && gcode.g == 28 then ActuatorHoming.process_home_command k w else w

/-- The axis mask a homing request names, in the words of the specification:
one bit for each of the letters X, Y, Z the command carries, and all three
axes when it names none. -/
def requested_axis_mask (gcode : Gcode) : Nat :=
  let named := (if gcode.has_letter 88 then 1 else 0) + (if gcode.has_letter 89 then 2 else 0)
    + (if gcode.has_letter 90 then 4 else 0)
  if named = 0 then 7 else named

/-! ## Reading the trace -/

/-- The `home()` calls of a trace, oldest first: for each, the number of polls
made before the call and its group mask. -/
def home_calls (tr : List (Nat × Event)) : List (Nat × Nat) :=
  tr.filterMap fun e =>
    match e.2 with
    | Event.home a => some (e.1, a)
    | _ => none

/-- The position triples of the `reset_actuator_position` calls of a trace. -/
def position_reports (tr : List (Nat × Event)) : List (ℚ × ℚ × ℚ) :=
  tr.filterMap fun e =>
    match e.2 with
    | Event.reset_actuator_position p0 p1 p2 => some (p0, p1, p2)
    | _ => none

/-- The step pulses of a trace on the axis `c`: the direction of each. -/
def pulses_on (c : Nat) (tr : List (Nat × Event)) : List Bool :=
  tr.filterMap fun e =>
    match e.2 with
    | Event.manual_step a dir => if a = c then some dir else none
    | _ => none

/-- The events a run has added to the trace of the world it started from. -/
def events_since (w w1 : World) : List (Nat × Event) :=
  w1.trace.drop w.trace.length

/-- The event is one that only the body of `home()` makes: a direction set, a
pin read, a step pulse or a delay. -/
def Event.in_home : Event → Bool
  | Event.set_direction _ _ => true
  | Event.pin_get _ => true
  | Event.manual_step _ _ => true
  | Event.safe_delay_us _ => true
  | _ => false

/-- The world `w1` comes from `w` by events of the body of `home()` alone, with
the controller untouched and no poll undone. -/
def InHome (w w1 : World) : Prop :=
  (∃ new, w1.trace = w.trace ++ new ∧ ∀ e ∈ new, e.2.in_home = true)
    ∧ w1.self = w.self ∧ w.polls ≤ w1.polls

/-! ## Parts of `home`, named -/

/-- The index `c + 3*(int)!home_direction[c]` of the pin that `home` reads for
the axis `c`: the min endstop `pins[c]` when the axis homes to min, the max
endstop `pins[c + 3]` when it homes to max. -/
def homing_pin (self : ActuatorHoming) (c : Nat) : Nat :=
  c + 3 * (if self.home_direction c then 0 else 1)

/-- The body of one iteration of the fast approach between the halt check and
the delay: the loop over `c` of lines 223-230, started with `movedAxis = false`. -/
def iteration (k : Kernel) (axes_to_move : Nat) (w : World) : World × Bool :=
  [0, 1, 2].foldl (fast_axis k axes_to_move) (w, false)

/-- The poll at which an iteration entered with `polls` polls made reads the
pin of the axis `c`: one poll later for each axis of the group below `c`. -/
def read_poll (axes_to_move c polls : Nat) : Nat :=
  polls + ((List.range c).filter fun d => axis_selected axes_to_move d).length

/-- The values `fastSpeed` and `stepPermm` that `home` has computed when its
first loop over `c` is over (lines 199-210). -/
def home_cadence (k : Kernel) (axes_to_move : Nat) (w : World) : ℚ × ℚ :=
  ([0, 1, 2].foldl (home_setup k axes_to_move) ((w.emit (Event.home axes_to_move)).tick, 0, 0)).2

/-- The pins read in a trace, oldest first. -/
def pin_reads (tr : List (Nat × Event)) : List Nat :=
  tr.filterMap fun e =>
    match e.2 with
    | Event.pin_get index => some index
    | _ => none

/-- The number of `safe_delay_us` calls of a trace: the number of iterations
of the fast approach that ran to their end. -/
def delays (tr : List (Nat × Event)) : Nat :=
  (tr.filter fun e =>
    match e.2 with
    | Event.safe_delay_us _ => true
    | _ => false).length

/-- The event is one that `home` may make for the group `axes_to_move` of a
controller with the directions `dir`: a direction set or a step pulse on an
axis of the group, in its home direction; a read of the homing-side pin of an
axis of the group; or a delay. -/
def group_event (axes_to_move : Nat) (dir : Nat → Bool) : Event → Prop
  | Event.set_direction c d => c < 3 ∧ axis_selected axes_to_move c = true ∧ d = dir c
  | Event.pin_get index =>
    ∃ c, c < 3 ∧ axis_selected axes_to_move c = true
      ∧ index = c + 3 * (if dir c then 0 else 1)
  | Event.manual_step c d => c < 3 ∧ axis_selected axes_to_move c = true ∧ d = dir c
  | Event.safe_delay_us _ => True
  | _ => False

/-- The world `w1` comes from `w` by events of the group `axes_to_move` alone,
with the controller untouched and no poll undone. -/
def InGroup (axes_to_move : Nat) (w w1 : World) : Prop :=
  (∃ new, w1.trace = w.trace ++ new
      ∧ ∀ e ∈ new, group_event axes_to_move w.self.home_direction e.2)
    ∧ w1.self = w.self ∧ w.polls ≤ w1.polls

/-- The value `x` is the least of the `rate`s of the axes of the group below
`n`, and 0 when the group has no axis below `n`. -/
def cadence_min (axes_to_move n : Nat) (rate : Nat → ℚ) (x : ℚ) : Prop :=
  (x = 0 ∧ ∀ c, c < n → axis_selected axes_to_move c = false)
    ∨ (0 < x ∧ (∃ c, c < n ∧ axis_selected axes_to_move c = true ∧ x = rate c)
        ∧ ∀ c, c < n → axis_selected axes_to_move c = true → x ≤ rate c)

/-! ## Sequences of operations on the controller -/

/-- An operation on the module: a configuration load, a received G-code, or a
public-data request for the homing status. -/
inductive Op where
  | load_config (cfg : Config)
  | gcode_received (gcode : Gcode)
  | get_public_data

/-- The effect of one operation on the world.  The status request only reads. -/
def Op.apply (k : Kernel) : Op → World → World
  | Op.load_config cfg, w => { w with self := ActuatorHoming.load_config k cfg w.self }
  | Op.gcode_received gcode, w => ActuatorHoming.on_gcode_received k gcode w
  | Op.get_public_data, w => w

/-- The world after a sequence of operations. -/
def run (k : Kernel) (ops : List Op) (w : World) : World :=
  ops.foldl (fun w1 op => op.apply k w1) w

/-- The world of a controller just constructed over the uninitialised members
`members`. -/
def constructed (members : ActuatorHoming) : World where
  self := ActuatorHoming.init members
  polls := 0
  trace := []

/-! ## The configuration keys, by axis -/

/-- The three per-axis quantities `load_config` resolves in two layers. -/
inductive Param where
  | fast
  | slow
  | retract
  deriving DecidableEq

/-- The name of the legacy, step-based key of a quantity for the axis `i`
(lines 142-150); axis 0 is alpha, 1 is beta, 2 is gamma. -/
def Param.legacy_key : Param → Nat → String
  | Param.fast, 0 => "alpha_fast_homing_rate"
  | Param.fast, 1 => "beta_fast_homing_rate"
  | Param.fast, _ => "gamma_fast_homing_rate"
  | Param.slow, 0 => "alpha_slow_homing_rate"
  | Param.slow, 1 => "beta_slow_homing_rate"
  | Param.slow, _ => "gamma_slow_homing_rate"
  | Param.retract, 0 => "alpha_homing_retract"
  | Param.retract, 1 => "beta_homing_retract"
  | Param.retract, _ => "gamma_homing_retract"

/-- The default of the legacy key of a quantity for the axis `i` (lines
142-150). -/
def Param.legacy_default : Param → Nat → ℚ
  | Param.fast, 0 => 4000
  | Param.fast, 1 => 4000
  | Param.fast, _ => 6400
  | Param.slow, 0 => 2000
  | Param.slow, 1 => 2000
  | Param.slow, _ => 3200
  | Param.retract, 0 => 400
  | Param.retract, 1 => 400
  | Param.retract, _ => 1600

/-- The name of the millimeter-native key of a quantity for the axis `i`
(lines 153-161). -/
def Param.mm_key : Param → Nat → String
  | Param.fast, 0 => "alpha_fast_homing_rate_mm_s"
  | Param.fast, 1 => "beta_fast_homing_rate_mm_s"
  | Param.fast, _ => "gamma_fast_homing_rate_mm_s"
  | Param.slow, 0 => "alpha_slow_homing_rate_mm_s"
  | Param.slow, 1 => "beta_slow_homing_rate_mm_s"
  | Param.slow, _ => "gamma_slow_homing_rate_mm_s"
  | Param.retract, 0 => "alpha_homing_retract_mm"
  | Param.retract, 1 => "beta_homing_retract_mm"
  | Param.retract, _ => "gamma_homing_retract_mm"

/-- The member of the controller that holds a quantity: `fast_rates`,
`slow_rates` or `retract_mm`. -/
def Param.member : Param → ActuatorHoming → Nat → ℚ
  | Param.fast, self => self.fast_rates
  | Param.slow, self => self.slow_rates
  | Param.retract, self => self.retract_mm

/-- The name of the homing-direction key of the axis `i` (lines 164-170). -/
def direction_key : Nat → String
  | 0 => "alpha_homing_direction"
  | 1 => "beta_homing_direction"
  | _ => "gamma_homing_direction"

/-- The name of the axis-minimum key of the axis `i` (lines 173-175). -/
def min_key : Nat → String
  | 0 => "alpha_min"
  | 1 => "beta_min"
  | _ => "gamma_min"

/-- The name of the axis-maximum key of the axis `i` (lines 173-175). -/
def max_key : Nat → String
  | 0 => "alpha_max"
  | 1 => "beta_max"
  | _ => "gamma_max"

/-! ## Sample configurations and environments -/

/-- An environment like `quiet_kernel` with 100 steps per millimeter on every
axis. -/
def kernel_100 : Kernel where
  is_halted := fun _ => false
  pin_get := fun _ _ => true
  steps_per_mm := fun _ => 100
  is_grbl_mode := false

/-- A configuration of the Y axis: it homes to max, its travel goes from 5 to
200, its legacy fast rate is 4000 steps per second, and no millimeter-native
key is set. -/
def y_to_max_config : Config where
  number := fun key =>
    if key = "beta_fast_homing_rate" then some 4000
    else if key = "beta_max" then some 200
    else if key = "beta_min" then some 5
    else none
  string := fun key => if key = "beta_homing_direction" then some (cstr "home_to_max") else none
  get_checksum := fun s => s.foldl (fun h c => (h * 31 + c) % 65536) 0

/-- Fletcher's 16-bit checksum of a byte string: two running sums modulo 255,
the second one in the high byte.  It is an instance of `Config.get_checksum`
for sample configurations, after the algorithm of the firmware's
`get_checksum`, whose source is outside this module. -/
def fletcher16 (s : List Nat) : Nat :=
  let sums := s.foldl
    (fun (p : Nat × Nat) c => ((p.1 + c) % 255, (p.2 + (p.1 + c) % 255) % 255)) (0, 0)
  sums.2 * 256 + sums.1

/-- A configuration of the X axis with the Fletcher checksum: its travel goes
from 5 to 300 and its direction token is `imne_to_max`, which is not
`home_to_max` and has the same checksum. -/
def colliding_config : Config where
  number := fun key =>
    if key = "alpha_max" then some 300
    else if key = "alpha_min" then some 5
    else none
  string := fun key => if key = "alpha_homing_direction" then some (cstr "imne_to_max") else none
  get_checksum := fletcher16

/-- A configuration that sets both the legacy and the millimeter-native fast
rate of the X axis. -/
def both_keys_config : Config where
  number := fun key =>
    if key = "alpha_fast_homing_rate" then some 4000
    else if key = "alpha_fast_homing_rate_mm_s" then some 25
    else none
  string := fun _ => none
  get_checksum := fun s => s.foldl (fun h c => (h * 31 + c) % 65536) 0

/-- A configuration in which only `homing_order` is set.  Its `get_checksum`
is a stand-in hash, good enough to tell the two direction tokens apart. -/
def order_config (order : List Nat) : Config where
  number := fun _ => none
  string := fun key => if key = "homing_order" then some order else none
  get_checksum := fun s => s.foldl (fun h c => (h * 31 + c) % 65536) 0

/-- An environment in which the halt flag is never raised, all the endstops
read triggered, and every axis has 80 steps per millimeter. -/
def quiet_kernel : Kernel where
  is_halted := fun _ => false
  pin_get := fun _ _ => true
  steps_per_mm := fun _ => 80
  is_grbl_mode := false

/-- An environment in which the halt flag is up from the poll number `t0` on,
all the endstops read triggered, and every axis has 80 steps per millimeter. -/
def halting_kernel (t0 : Nat) : Kernel where
  is_halted := fun t => decide (t0 ≤ t)
  pin_get := fun _ _ => true
  steps_per_mm := fun _ => 80
  is_grbl_mode := false

/-- An environment in which the halt flag is never raised, every endstop reads
untriggered at the polls below number 6 and triggered from then on, and every
axis has 80 steps per millimeter. -/
def approach_kernel : Kernel where
  is_halted := fun _ => false
  pin_get := fun _ t => decide (6 ≤ t)
  steps_per_mm := fun _ => 80
  is_grbl_mode := false

/-- The command `G28 X`: a homing request that names the X axis only. -/
def g28_x : Gcode where
  has_g := true
  g := 28
  has_letter := fun c => c == 88

/-- The command `G28`: a homing request that names no axis. -/
def g28 : Gcode where
  has_g := true
  g := 28
  has_letter := fun _ => false

/-- A controller as constructed, its other members zeroed. -/
def fresh : ActuatorHoming :=
  ActuatorHoming.init
    { homing_position := fun _ => 0
      homing_order := 0
      home_direction := fun _ => false
      retract_mm := fun _ => 0
      fast_rates := fun _ => 0
      slow_rates := fun _ => 0
      status := Status.NOT_HOMING }

/-- The world of a controller loaded from the configuration `cfg`, before
any poll and any event. -/
def loaded (k : Kernel) (cfg : Config) : World where
  self := ActuatorHoming.load_config k cfg fresh
  polls := 0
  trace := []

end Smoothie

namespace Smoothie

/-! ## The homing order computed by `load_config` -/

theorem load_config_homing_order (k : Kernel) (cfg : Config) (self : ActuatorHoming) :
    (ActuatorHoming.load_config k cfg self).homing_order
      = parse_homing_order (cfg.as_string "homing_order" []) := rfl

theorem load_config_status (k : Kernel) (cfg : Config) (self : ActuatorHoming) :
    (ActuatorHoming.load_config k cfg self).status = self.status := rfl

theorem axis_index_of_letter {c : Nat} (h : is_axis_letter c) :
    axis_index c = toupper c - 88 ∧ toupper c - 88 ≤ 2 := by
  unfold is_axis_letter at h
  rcases h with rfl | rfl | rfl | rfl | rfl | rfl <;> decide

theorem axis_index_bad {c : Nat} (hc : c < 256) (h : ¬ is_axis_letter c) :
    2 < axis_index c := by
  unfold is_axis_letter at h
  unfold axis_index toupper
  split <;> omega

theorem order_loop_bad (order : List Nat) (h : ∃ c ∈ order, 2 < axis_index c) :
    ∀ shift homing_order, order_loop order shift homing_order = 0 := by
  induction order with
  | nil => simp at h
  | cons c rest ih =>
    intro shift homing_order
    by_cases hc : 2 < axis_index c
    · simp [order_loop, hc]
    · have hrest : ∃ d ∈ rest, 2 < axis_index d := by
        obtain ⟨d, hd, hbad⟩ := h
        rcases List.mem_cons.mp hd with rfl | hd
        · exact absurd hbad hc
        · exact ⟨d, hd, hbad⟩
      simp [order_loop, hc, ih hrest]

theorem parse_three_letters {c0 c1 c2 : Nat} (h0 : is_axis_letter c0)
    (h1 : is_axis_letter c1) (h2 : is_axis_letter c2) :
    parse_homing_order [c0, c1, c2]
      = axis_index c0 + 4 * axis_index c1 + 16 * axis_index c2 := by
  unfold is_axis_letter at h0 h1 h2
  rcases h0 with rfl | rfl | rfl | rfl | rfl | rfl <;>
    rcases h1 with rfl | rfl | rfl | rfl | rfl | rfl <;>
      rcases h2 with rfl | rfl | rfl | rfl | rfl | rfl <;> decide

/-- C3. A homing-order string that is empty, has a length other than 3, or has
length 3 and holds at some position a byte that is not one of the letters
X, Y, Z, x, y, z makes `load_config` store the unordered sentinel 0 in
`homing_order`, whatever the other characters are. -/
theorem malformed_order_is_unordered (k : Kernel) (cfg : Config) (self : ActuatorHoming)
    (order : List Nat) (hcfg : cfg.as_string "homing_order" [] = order)
    (hbytes : ∀ c ∈ order, c < 256)
    (hbad : order = [] ∨ order.length ≠ 3 ∨ ∃ c ∈ order, ¬ is_axis_letter c) :
    (ActuatorHoming.load_config k cfg self).homing_order = 0 := by
  rw [load_config_homing_order, hcfg]
  unfold parse_homing_order
  split
  · rename_i hlen
    rcases hbad with rfl | hne | ⟨c, hc, hnot⟩
    · simp at hlen
    · exact absurd hlen hne
    · exact order_loop_bad order ⟨c, hc, axis_index_bad (hbytes c hc) hnot⟩ 0 0
  · rfl

theorem malformed_order_is_unordered_witness :
    (ActuatorHoming.load_config quiet_kernel (order_config (cstr "XY!")) fresh).homing_order = 0
    ∧ (ActuatorHoming.load_config quiet_kernel (order_config (cstr "XYZX")) fresh).homing_order = 0
    ∧ (ActuatorHoming.load_config quiet_kernel (order_config []) fresh).homing_order = 0 :=
  ⟨malformed_order_is_unordered quiet_kernel (order_config (cstr "XY!")) fresh (cstr "XY!")
      (by decide) (by decide) (Or.inr (Or.inr ⟨33, by decide, by decide⟩)),
    malformed_order_is_unordered quiet_kernel (order_config (cstr "XYZX")) fresh (cstr "XYZX")
      (by decide) (by decide) (Or.inr (Or.inl (by decide))),
    malformed_order_is_unordered quiet_kernel (order_config []) fresh []
      (by decide) (by decide) (Or.inl rfl)⟩

/-- C4. For a 3-character order string `c0 c1 c2` of axis letters, `load_config`
stores `i0 + 4*i1 + 16*i2` in `homing_order`, where `ik = toupper(ck) - 'X'` is
0, 1 or 2: two bits per axis, the first letter in the lowest two bits.  So
"YXZ" gives 0b00100001 and "XYZ" gives 0b00100100. -/
theorem order_packing (k : Kernel) (cfg : Config) (self : ActuatorHoming)
    (c0 c1 c2 : Nat) (hcfg : cfg.as_string "homing_order" [] = [c0, c1, c2])
    (h0 : is_axis_letter c0) (h1 : is_axis_letter c1) (h2 : is_axis_letter c2) :
    (ActuatorHoming.load_config k cfg self).homing_order
        = (toupper c0 - 88) + 4 * (toupper c1 - 88) + 16 * (toupper c2 - 88)
      ∧ toupper c0 - 88 ≤ 2 ∧ toupper c1 - 88 ≤ 2 ∧ toupper c2 - 88 ≤ 2
      ∧ ((ActuatorHoming.load_config k cfg self).homing_order) % 4 = toupper c0 - 88
      ∧ ([c0, c1, c2] = cstr "YXZ" →
          (ActuatorHoming.load_config k cfg self).homing_order = 0b00100001)
      ∧ ([c0, c1, c2] = cstr "XYZ" →
          (ActuatorHoming.load_config k cfg self).homing_order = 0b00100100) := by
  have e0 := axis_index_of_letter h0
  have e1 := axis_index_of_letter h1
  have e2 := axis_index_of_letter h2
  have hp := parse_three_letters h0 h1 h2
  rw [load_config_homing_order, hcfg, hp, e0.1, e1.1, e2.1]
  refine ⟨rfl, e0.2, e1.2, e2.2, by omega, ?_, ?_⟩
  · intro h
    simp [cstr] at h
    obtain ⟨rfl, rfl, rfl⟩ := h
    decide
  · intro h
    simp [cstr] at h
    obtain ⟨rfl, rfl, rfl⟩ := h
    decide

theorem order_packing_witness :
    (ActuatorHoming.load_config quiet_kernel (order_config (cstr "zYx")) fresh).homing_order
      = 2 + 4 * 1 + 16 * 0 :=
  (order_packing quiet_kernel (order_config (cstr "zYx")) fresh 122 89 120
    (by decide) (by decide) (by decide) (by decide)).1

/-! ## Traces of `home` -/

@[simp] theorem emit_trace (w : World) (e : Event) :
    (w.emit e).trace = w.trace ++ [(w.polls, e)] := rfl

@[simp] theorem emit_polls (w : World) (e : Event) : (w.emit e).polls = w.polls := rfl

@[simp] theorem emit_self (w : World) (e : Event) : (w.emit e).self = w.self := rfl

@[simp] theorem tick_trace (w : World) : w.tick.trace = w.trace := rfl

@[simp] theorem tick_polls (w : World) : w.tick.polls = w.polls + 1 := rfl

@[simp] theorem tick_self (w : World) : w.tick.self = w.self := rfl

theorem InHome.refl (w : World) : InHome w w :=
  ⟨⟨[], by simp, by simp⟩, rfl, Nat.le_refl _⟩

theorem InHome.trans {w w1 w2 : World} (h1 : InHome w w1) (h2 : InHome w1 w2) :
    InHome w w2 := by
  obtain ⟨⟨n1, e1, p1⟩, s1, l1⟩ := h1
  obtain ⟨⟨n2, e2, p2⟩, s2, l2⟩ := h2
  refine ⟨⟨n1 ++ n2, by rw [e2, e1, List.append_assoc], ?_⟩, s2.trans s1, Nat.le_trans l1 l2⟩
  intro e he
  rcases List.mem_append.mp he with h | h
  · exact p1 e h
  · exact p2 e h

theorem InHome.emit (w : World) (e : Event) (he : e.in_home = true) : InHome w (w.emit e) :=
  ⟨⟨[(w.polls, e)], rfl, by simpa using he⟩, rfl, Nat.le_refl _⟩

theorem InHome.tick (w : World) : InHome w w.tick :=
  ⟨⟨[], by simp, by simp⟩, rfl, Nat.le_succ _⟩

theorem home_calls_in_home {new : List (Nat × Event)} (h : ∀ e ∈ new, e.2.in_home = true) :
    home_calls new = [] := by
  induction new with
  | nil => rfl
  | cons e rest ih =>
    have he : e.2.in_home = true := h e (List.mem_cons_self _ _)
    have hr := ih (fun x hx => h x (List.mem_cons_of_mem _ hx))
    unfold home_calls at hr ⊢
    rw [List.filterMap_cons]
    obtain ⟨t, ev⟩ := e
    cases ev <;> first | exact hr | exact absurd he (by simp [Event.in_home])

theorem position_reports_in_home {new : List (Nat × Event)}
    (h : ∀ e ∈ new, e.2.in_home = true) : position_reports new = [] := by
  induction new with
  | nil => rfl
  | cons e rest ih =>
    have he : e.2.in_home = true := h e (List.mem_cons_self _ _)
    have hr := ih (fun x hx => h x (List.mem_cons_of_mem _ hx))
    unfold position_reports at hr ⊢
    rw [List.filterMap_cons]
    obtain ⟨t, ev⟩ := e
    cases ev <;> first | exact hr | exact absurd he (by simp [Event.in_home])

theorem home_setup_in_home (k : Kernel) (a : Nat) (st : World × ℚ × ℚ) (c : Nat) :
    InHome st.1 (home_setup k a st c).1 ∧ (home_setup k a st c).1.polls = st.1.polls := by
  unfold home_setup
  by_cases hs : axis_selected a c = true
  · rw [if_pos hs]
    exact ⟨InHome.emit _ (Event.set_direction _ _) rfl, rfl⟩
  · rw [if_neg hs]
    exact ⟨InHome.refl _, rfl⟩

theorem fast_axis_in_home (k : Kernel) (a : Nat) (st : World × Bool) (c : Nat) :
    InHome st.1 (fast_axis k a st c).1 := by
  unfold fast_axis
  by_cases hs : axis_selected a c = true
  · rw [if_pos hs]
    dsimp only
    generalize c + 3 * (if st.1.self.home_direction c = true then 0 else 1) = index
    have h1 : InHome st.1 (st.1.emit (Event.pin_get index)).tick :=
      (InHome.emit _ (Event.pin_get index) rfl).trans (InHome.tick _)
    by_cases hl : (!k.pin_get index st.1.polls) = true
    · rw [if_pos hl]
      exact h1.trans (InHome.emit _ (Event.manual_step _ _) rfl)
    · rw [if_neg hl]
      exact h1
  · rw [if_neg hs]
    exact InHome.refl _

theorem fast_loop_in_home (k : Kernel) (a delay : Nat) :
    ∀ (n : Nat) (moved : Bool) (w : World), InHome w (fast_loop k a delay n moved w) := by
  intro n
  induction n with
  | zero => intro moved w; exact InHome.refl w
  | succ n ih =>
    intro moved w
    unfold fast_loop
    split
    · exact InHome.refl w
    · dsimp only
      split
      · exact InHome.tick w
      · refine (InHome.tick w).trans (InHome.trans ?_ (ih _ _))
        simp only [List.foldl]
        exact ((fast_axis_in_home k a _ 0).trans ((fast_axis_in_home k a _ 1).trans
          (fast_axis_in_home k a _ 2))).trans (InHome.emit _ (Event.safe_delay_us delay) rfl)

/-- What a call of `home` does to the world: it adds its entry event and then
events of its body only, polls at least once, and changes no member of the
controller but `status`, which it sets to `MOVING_TO_ENDSTOP_FAST` unless the
halt flag is up at entry. -/
theorem home_spec (k : Kernel) (a : Nat) (w : World) :
    (∃ new, (ActuatorHoming.home k a w).trace = w.trace ++ (w.polls, Event.home a) :: new
        ∧ ∀ e ∈ new, e.2.in_home = true)
      ∧ (ActuatorHoming.home k a w).self
          = (if k.is_halted w.polls then w.self
             else { w.self with status := Status.MOVING_TO_ENDSTOP_FAST })
      ∧ w.polls < (ActuatorHoming.home k a w).polls := by
  unfold ActuatorHoming.home
  dsimp only
  split
  · rename_i hh
    simp only [emit_polls] at hh
    refine ⟨⟨[], by simp, by simp⟩, by simp [hh], by simp⟩
  · rename_i hh
    simp only [emit_polls] at hh
    simp only [List.foldl]
    have s0 := home_setup_in_home k a ((w.emit (Event.home a)).tick, 0, 0) 0
    have s1 := home_setup_in_home k a
      (home_setup k a ((w.emit (Event.home a)).tick, 0, 0) 0) 1
    have s2 := home_setup_in_home k a
      (home_setup k a (home_setup k a ((w.emit (Event.home a)).tick, 0, 0) 0) 1) 2
    have hs := (s0.1.trans s1.1).trans s2.1
    generalize home_setup k a
      (home_setup k a (home_setup k a ((w.emit (Event.home a)).tick, 0, 0) 0) 1) 2 = st at hs
    obtain ⟨⟨n1, e1, p1⟩, hself, hpolls⟩ := hs
    have hl := fast_loop_in_home k a (delayus st.2.2 st.2.1)
      (float_to_int (fmul32 10000000 st.2.2)).toNat true
      { st.1 with self := { st.1.self with status := Status.MOVING_TO_ENDSTOP_FAST } }
    obtain ⟨⟨n2, e2, p2⟩, hself2, hpolls2⟩ := hl
    refine ⟨⟨n1 ++ n2, ?_, ?_⟩, ?_, ?_⟩
    · rw [e2]
      simp only [e1]
      simp
    · intro e he
      rcases List.mem_append.mp he with h | h
      · exact p1 e h
      · exact p2 e h
    · rw [hself2]
      simp [hh, hself]
    · simp only [tick_polls, emit_polls] at hpolls
      simp only at hpolls2
      omega

/-! ## Traces of `process_home_command` -/

theorem home_calls_append (a b : List (Nat × Event)) :
    home_calls (a ++ b) = home_calls a ++ home_calls b := by
  simp [home_calls, List.filterMap_append]

theorem position_reports_append (a b : List (Nat × Event)) :
    position_reports (a ++ b) = position_reports a ++ position_reports b := by
  simp [position_reports, List.filterMap_append]

theorem events_since_eq {w w1 : World} (new : List (Nat × Event))
    (h : w1.trace = w.trace ++ new) : events_since w w1 = new := by
  simp [events_since, h]

theorem group_mask_cases (m : Nat) :
    1 <<< (m &&& 3) = 1 ∨ 1 <<< (m &&& 3) = 2 ∨ 1 <<< (m &&& 3) = 4 ∨ 1 <<< (m &&& 3) = 8 := by
  have h : m &&& 3 ≤ 3 := Nat.and_le_right
  generalize m &&& 3 = x at h
  interval_cases x <;> decide

/-- The events one call of `home` adds hold exactly one `home()` entry, the
call itself, and no position report. -/
theorem home_events (k : Kernel) (a : Nat) (w : World) :
    ∃ new, (ActuatorHoming.home k a w).trace = w.trace ++ new
      ∧ home_calls new = [(w.polls, a)] ∧ position_reports new = [] := by
  obtain ⟨⟨nh, eh, ph⟩, -, -⟩ := home_spec k a w
  refine ⟨(w.polls, Event.home a) :: nh, eh, ?_, ?_⟩
  · have := home_calls_in_home ph
    unfold home_calls at this ⊢
    rw [List.filterMap_cons]
    simp [this]
  · have := position_reports_in_home ph
    unfold position_reports at this ⊢
    rw [List.filterMap_cons]
    simp [this]

theorem home_self_cases (k : Kernel) (a : Nat) (w : World) :
    (ActuatorHoming.home k a w).self = w.self
      ∨ (ActuatorHoming.home k a w).self
          = { w.self with status := Status.MOVING_TO_ENDSTOP_FAST } := by
  rw [(home_spec k a w).2.1]
  split
  · exact Or.inl rfl
  · exact Or.inr rfl

/-- What the ordered loop does to the world.  The `home()` calls it makes are
single-bit masks; each call after the first is entered right after a poll
that found the halt flag clear; no position report is made. -/
theorem home_in_order_spec (k : Kernel) :
    ∀ (n m : Nat) (w : World),
      ∃ new, (home_in_order k n m w).trace = w.trace ++ new
        ∧ position_reports new = []
        ∧ (home_calls new = [] ∨ ∃ a rest, home_calls new = (w.polls, a) :: rest
            ∧ ∀ c ∈ rest, w.polls < c.1 ∧ k.is_halted (c.1 - 1) = false)
        ∧ (∀ c ∈ home_calls new, c.2 = 1 ∨ c.2 = 2 ∨ c.2 = 4 ∨ c.2 = 8)
        ∧ ((home_in_order k n m w).self = w.self
            ∨ (home_in_order k n m w).self
                = { w.self with status := Status.MOVING_TO_ENDSTOP_FAST })
        ∧ w.polls ≤ (home_in_order k n m w).polls := by
  intro n
  induction n with
  | zero =>
    intro m w
    exact ⟨[], by simp [home_in_order], rfl, Or.inl rfl, by simp [home_calls],
      Or.inl rfl, Nat.le_refl _⟩
  | succ n ih =>
    intro m w
    unfold home_in_order
    by_cases hm : m = 0
    · rw [if_pos hm]
      exact ⟨[], by simp, rfl, Or.inl rfl, by simp [home_calls], Or.inl rfl, Nat.le_refl _⟩
    · rw [if_neg hm]
      dsimp only
      obtain ⟨nh, eh, ch, rh⟩ := home_events k (1 <<< (m &&& 3)) w
      have hself := home_self_cases k (1 <<< (m &&& 3)) w
      have hpolls := (home_spec k (1 <<< (m &&& 3)) w).2.2
      have hmask := group_mask_cases m
      generalize ActuatorHoming.home k (1 <<< (m &&& 3)) w = w1 at eh hself hpolls
      generalize 1 <<< (m &&& 3) = a at ch hmask
      have hp : home_calls [(w1.polls, Event.printf "Homing %d \r\n" [a])] = [] := rfl
      have hq : position_reports [(w1.polls, Event.printf "Homing %d \r\n" [a])] = [] := rfl
      by_cases hh : k.is_halted (w1.emit (Event.printf "Homing %d \r\n" [a])).polls = true
      · rw [if_pos hh]
        refine ⟨nh ++ [(w1.polls, Event.printf "Homing %d \r\n" [a])], ?_, ?_, ?_, ?_, ?_, ?_⟩
        · simp [eh]
        · rw [position_reports_append, rh, hq]; rfl
        · right
          exact ⟨a, [], by rw [home_calls_append, ch, hp]; rfl, by simp⟩
        · intro c hc
          rw [home_calls_append, ch, hp] at hc
          simp at hc
          rw [hc]
          exact hmask
        · simpa using hself
        · simp only [tick_polls, emit_polls]
          omega
      · rw [if_neg hh]
        simp only [emit_polls] at hh
        obtain ⟨nr, er, rr, cr, mr, sr, pr⟩ :=
          ih (m >>> 2) (w1.emit (Event.printf "Homing %d \r\n" [a])).tick
        refine ⟨nh ++ [(w1.polls, Event.printf "Homing %d \r\n" [a])] ++ nr,
          ?_, ?_, ?_, ?_, ?_, ?_⟩
        · rw [er]
          simp [eh]
        · rw [position_reports_append, position_reports_append, rh, hq, rr]; rfl
        · right
          refine ⟨a, home_calls nr, ?_, ?_⟩
          · rw [home_calls_append, home_calls_append, ch, hp]; rfl
          · intro c hc
            simp only [tick_polls, emit_polls] at cr
            rcases cr with h0 | ⟨a1, rest, h1, h2⟩
            · rw [h0] at hc
              simp at hc
            · rw [h1] at hc
              rcases List.mem_cons.mp hc with rfl | hc
              · refine ⟨by simp only; omega, ?_⟩
                simpa using hh
              · obtain ⟨l1, l2⟩ := h2 c hc
                exact ⟨by omega, l2⟩
        · intro c hc
          rw [home_calls_append, home_calls_append, ch, hp] at hc
          simp only [List.append_nil, List.singleton_append, List.mem_cons] at hc
          rcases hc with rfl | hc
          · exact hmask
          · exact mr c hc
        · simp only [tick_self, emit_self] at sr
          rcases hself with h | h <;> rcases sr with h1 | h1 <;> rw [h1, h] <;> simp
        · simp only [tick_polls, emit_polls] at pr
          omega

theorem home_in_order_done (k : Kernel) (n : Nat) (w : World) :
    home_in_order k n 0 w = w := by
  cases n <;> simp [home_in_order]

/-- Four iterations are enough for the ordered loop: a value below 4^j is
exhausted by j iterations, so any larger bound gives the same run. -/
theorem home_in_order_fuel (k : Kernel) :
    ∀ (j m : Nat), m < 4 ^ j → ∀ (n : Nat) (w : World),
      home_in_order k (j + n) m w = home_in_order k j m w := by
  intro j
  induction j with
  | zero =>
    intro m hm n w
    have h0 : m = 0 := by simpa using hm
    rw [h0, home_in_order_done, home_in_order_done]
  | succ j ih =>
    intro m hm n w
    have hj : j + 1 + n = (j + n) + 1 := by omega
    rw [hj]
    unfold home_in_order
    by_cases h0 : m = 0
    · rw [if_pos h0, if_pos h0]
    · rw [if_neg h0, if_neg h0]
      dsimp only
      have hlt : m >>> 2 < 4 ^ j := by
        rw [Nat.shiftRight_eq_div_pow]
        have : 4 ^ (j + 1) = 4 ^ j * 4 := pow_succ 4 j
        rw [Nat.div_lt_iff_lt_mul (by norm_num)]
        omega
      rw [ih (m >>> 2) hlt]

theorem home_in_order_uint8 (k : Kernel) (homing_order n : Nat) (w : World) :
    home_in_order k (4 + n) (homing_order % 256) w
      = home_in_order k 4 (homing_order % 256) w :=
  home_in_order_fuel k 4 (homing_order % 256) (Nat.mod_lt _ (by norm_num)) n w

/-- What a homing cycle does up to its last halt check: the world `w1` reached
when the sub-cycles are over, and how the cycle ends from there. -/
theorem cycle_spec (k : Kernel) (w : World) :
    ∃ (w1 : World) (new : List (Nat × Event)), w1.trace = w.trace ++ new
      ∧ position_reports new = []
      ∧ (home_calls new = [] ∨ ∃ a rest, home_calls new = (w.polls, a) :: rest
          ∧ ∀ c ∈ rest, w.polls < c.1 ∧ k.is_halted (c.1 - 1) = false)
      ∧ (if w.self.homing_order = 0 then home_calls new = [(w.polls, 7)]
          else ∀ c ∈ home_calls new, c.2 = 1 ∨ c.2 = 2 ∨ c.2 = 4 ∨ c.2 = 8)
      ∧ (w1.self = w.self
          ∨ w1.self = { w.self with status := Status.MOVING_TO_ENDSTOP_FAST })
      ∧ w.polls ≤ w1.polls
      ∧ ActuatorHoming.process_home_command k w
          = if k.is_halted w1.polls then
              (if !k.is_grbl_mode then
                w1.tick.emit (Event.streams_printf "Homing cycle aborted by kill\n")
              else w1.tick)
            else
              w1.tick.emit (Event.reset_actuator_position (w1.self.homing_position 0)
                (w1.self.homing_position 1) (w1.self.homing_position 2)) := by
  by_cases ho : w.self.homing_order ≠ 0
  · obtain ⟨nr, er, rr, cr, mr, sr, pr⟩ := home_in_order_spec k 4 (w.self.homing_order % 256)
      ((w.emit (Event.printf "Start homing\r\n" [])).emit Event.wait_for_idle)
    refine ⟨home_in_order k 4 (w.self.homing_order % 256)
      ((w.emit (Event.printf "Start homing\r\n" [])).emit Event.wait_for_idle),
      [(w.polls, Event.printf "Start homing\r\n" []), (w.polls, Event.wait_for_idle)] ++ nr,
      ?_, ?_, ?_, ?_, ?_, ?_, ?_⟩
    · rw [er]; simp
    · rw [position_reports_append, rr]; rfl
    · rw [home_calls_append]
      simpa [home_calls] using cr
    · rw [if_neg ho, home_calls_append]
      simpa [home_calls] using mr
    · simpa using sr
    · simpa using pr
    · unfold ActuatorHoming.process_home_command
      dsimp only
      simp only [emit_self]
      rw [if_pos ho]
      rfl
  · obtain ⟨nh, eh, ch, rh⟩ := home_events k 7
      (((w.emit (Event.printf "Start homing\r\n" [])).emit Event.wait_for_idle).emit
        (Event.printf "Homing all\r\n" []))
    have hself := home_self_cases k 7
      (((w.emit (Event.printf "Start homing\r\n" [])).emit Event.wait_for_idle).emit
        (Event.printf "Homing all\r\n" []))
    have hpolls := (home_spec k 7
      (((w.emit (Event.printf "Start homing\r\n" [])).emit Event.wait_for_idle).emit
        (Event.printf "Homing all\r\n" []))).2.2
    refine ⟨ActuatorHoming.home k 7
      (((w.emit (Event.printf "Start homing\r\n" [])).emit Event.wait_for_idle).emit
        (Event.printf "Homing all\r\n" [])),
      [(w.polls, Event.printf "Start homing\r\n" []), (w.polls, Event.wait_for_idle),
        (w.polls, Event.printf "Homing all\r\n" [])] ++ nh, ?_, ?_, ?_, ?_, ?_, ?_, ?_⟩
    · rw [eh]; simp
    · rw [position_reports_append, rh]; rfl
    · right
      refine ⟨7, [], ?_, by simp⟩
      rw [home_calls_append, ch]
      rfl
    · rw [if_pos (not_not.mp ho), home_calls_append, ch]
      rfl
    · simpa using hself
    · simp only [emit_polls] at hpolls
      omega
    · unfold ActuatorHoming.process_home_command
      dsimp only
      simp only [emit_self]
      rw [if_neg ho]
      rfl

/-- How a homing cycle ends, in terms of the events it has added: with the halt
flag up at the last check there is no position report; with the flag clear
the report of `homing_position` is the last event. -/
theorem cycle_end (k : Kernel) (w : World) :
    ∃ (w1 : World) (new : List (Nat × Event)),
      position_reports new = []
      ∧ (home_calls new = [] ∨ ∃ a rest, home_calls new = (w.polls, a) :: rest
          ∧ ∀ c ∈ rest, w.polls < c.1 ∧ k.is_halted (c.1 - 1) = false)
      ∧ (if w.self.homing_order = 0 then home_calls new = [(w.polls, 7)]
          else ∀ c ∈ home_calls new, c.2 = 1 ∨ c.2 = 2 ∨ c.2 = 4 ∨ c.2 = 8)
      ∧ (ActuatorHoming.process_home_command k w).polls = w1.polls + 1
      ∧ home_calls (events_since w (ActuatorHoming.process_home_command k w)) = home_calls new
      ∧ (k.is_halted w1.polls = true →
          position_reports (events_since w (ActuatorHoming.process_home_command k w)) = [])
      ∧ (k.is_halted w1.polls = false →
          events_since w (ActuatorHoming.process_home_command k w)
            = new ++ [(w1.polls + 1, Event.reset_actuator_position (w.self.homing_position 0)
                (w.self.homing_position 1) (w.self.homing_position 2))]) := by
  obtain ⟨w1, new, e1, r1, c1, m1, s1, -, hp⟩ := cycle_spec k w
  have hpos : w1.self.homing_position = w.self.homing_position := by
    rcases s1 with h | h <;> rw [h]
  refine ⟨w1, new, r1, c1, m1, ?_, ?_, ?_, ?_⟩
  · rw [hp]
    split
    · split <;> rfl
    · rfl
  · rw [hp]
    split
    · split
      · rw [events_since_eq (new ++ [(w1.polls + 1,
          Event.streams_printf "Homing cycle aborted by kill\n")]) (by simp [e1]),
          home_calls_append]
        simp [home_calls]
      · rw [events_since_eq (new) (by simp [e1])]
    · rw [events_since_eq (new ++ [(w1.polls + 1,
        Event.reset_actuator_position (w1.self.homing_position 0)
          (w1.self.homing_position 1) (w1.self.homing_position 2))]) (by simp [e1]),
        home_calls_append]
      simp [home_calls]
  · intro hh
    rw [hp, if_pos hh]
    split
    · rw [events_since_eq (new ++ [(w1.polls + 1,
        Event.streams_printf "Homing cycle aborted by kill\n")]) (by simp [e1]),
        position_reports_append, r1]
      simp [position_reports]
    · rw [events_since_eq (new) (by simp [e1]), r1]
  · intro hh
    have hh1 : ¬ (k.is_halted w1.polls = true) := by simp [hh]
    rw [hp, if_neg hh1, hpos]
    exact events_since_eq _ (by simp [e1])

/-! ## Claims about the homing cycle -/

/-- C6. In a homing cycle, ordered or unordered, every `home()` call after the
first is entered right after a poll that found the halt flag clear.  So let
the flag be up at every poll from the poll number `t0` on: then every such
call is entered with at most `t0` polls made, that is, once the flag is up
before or during a sub-cycle, `home()` is not invoked for any later group.
And if the flag is up by the last check of the cycle (`t0` is below the
number of polls the cycle ends with), or simply is up at that last check,
`reset_actuator_position` is not called. -/
theorem halt_aborts_cycle (k : Kernel) (w : World) (t0 : Nat)
    (hstay : ∀ t, t0 ≤ t → k.is_halted t = true) :
    (∀ c ∈ (home_calls (events_since w (ActuatorHoming.process_home_command k w))).tail,
        0 < c.1 ∧ k.is_halted (c.1 - 1) = false ∧ c.1 ≤ t0)
      ∧ (t0 < (ActuatorHoming.process_home_command k w).polls →
          position_reports (events_since w (ActuatorHoming.process_home_command k w)) = [])
      ∧ (k.is_halted ((ActuatorHoming.process_home_command k w).polls - 1) = true →
          position_reports (events_since w (ActuatorHoming.process_home_command k w)) = []) := by
  obtain ⟨w1, new, -, c1, -, hpolls, hcalls, hhalt, -⟩ := cycle_end k w
  refine ⟨?_, ?_, ?_⟩
  · intro c hc
    rw [hcalls] at hc
    rcases c1 with h | ⟨a, rest, h, hrest⟩
    · rw [h] at hc
      simp at hc
    · rw [h] at hc
      obtain ⟨hlt, hclear⟩ := hrest c hc
      refine ⟨by omega, hclear, ?_⟩
      by_contra hgt
      have : k.is_halted (c.1 - 1) = true := hstay (c.1 - 1) (by omega)
      rw [hclear] at this
      exact Bool.noConfusion this
  · intro hlt
    exact hhalt (hstay w1.polls (by omega))
  · intro hup
    rw [hpolls] at hup
    exact hhalt (by simpa using hup)

theorem halt_aborts_cycle_witness :
    (∀ c ∈ (home_calls (events_since (loaded (halting_kernel 5) (order_config (cstr "XYZ")))
        (ActuatorHoming.process_home_command (halting_kernel 5)
          (loaded (halting_kernel 5) (order_config (cstr "XYZ")))))).tail,
        0 < c.1 ∧ (halting_kernel 5).is_halted (c.1 - 1) = false ∧ c.1 ≤ 5)
      ∧ position_reports (events_since (loaded (halting_kernel 5) (order_config (cstr "XYZ")))
          (ActuatorHoming.process_home_command (halting_kernel 5)
            (loaded (halting_kernel 5) (order_config (cstr "XYZ"))))) = []
      ∧ home_calls (events_since (loaded (halting_kernel 5) (order_config (cstr "XYZ")))
          (ActuatorHoming.process_home_command (halting_kernel 5)
            (loaded (halting_kernel 5) (order_config (cstr "XYZ"))))) = [(0, 1), (4, 2)] :=
  ⟨(halt_aborts_cycle (halting_kernel 5) (loaded (halting_kernel 5) (order_config (cstr "XYZ")))
      5 (fun t ht => by simp [halting_kernel, ht])).1,
    (halt_aborts_cycle (halting_kernel 5) (loaded (halting_kernel 5) (order_config (cstr "XYZ")))
      5 (fun t ht => by simp [halting_kernel, ht])).2.1 (by with_unfolding_all decide),
    by with_unfolding_all decide⟩

/-- C7. In a homing cycle during which the halt flag is never up,
`reset_actuator_position` is called exactly once, as the last event of the
cycle (after every `home()` call has returned, never between sub-cycles), with
the triple `homing_position[0]`, `homing_position[1]`, `homing_position[2]` the
controller held when the cycle started. -/
theorem single_position_report (k : Kernel) (w : World)
    (hk : ∀ t, k.is_halted t = false) :
    ∃ pre t,
      events_since w (ActuatorHoming.process_home_command k w)
          = pre ++ [(t, Event.reset_actuator_position (w.self.homing_position 0)
              (w.self.homing_position 1) (w.self.homing_position 2))]
        ∧ position_reports pre = []
        ∧ home_calls pre = home_calls (events_since w (ActuatorHoming.process_home_command k w))
        ∧ position_reports (events_since w (ActuatorHoming.process_home_command k w))
            = [(w.self.homing_position 0, w.self.homing_position 1,
                w.self.homing_position 2)] := by
  obtain ⟨w1, new, r1, c1, -, -, hcalls, -, hclear⟩ := cycle_end k w
  have he := hclear (hk w1.polls)
  refine ⟨new, w1.polls + 1, he, r1, hcalls.symm, ?_⟩
  rw [he, position_reports_append, r1]
  simp [position_reports]

theorem single_position_report_witness :
    ∃ pre t,
      events_since (loaded quiet_kernel (order_config (cstr "XYZ")))
          (ActuatorHoming.process_home_command quiet_kernel
            (loaded quiet_kernel (order_config (cstr "XYZ"))))
          = pre ++ [(t, Event.reset_actuator_position
              ((loaded quiet_kernel (order_config (cstr "XYZ"))).self.homing_position 0)
              ((loaded quiet_kernel (order_config (cstr "XYZ"))).self.homing_position 1)
              ((loaded quiet_kernel (order_config (cstr "XYZ"))).self.homing_position 2))]
        ∧ position_reports pre = [] :=
  have h := single_position_report quiet_kernel
    (loaded quiet_kernel (order_config (cstr "XYZ"))) (fun _ => rfl)
  h.elim fun pre hp => hp.elim fun t ht => ⟨pre, t, ht.1, ht.2.1⟩

theorem fast_loop_not_moved (k : Kernel) (a delay n : Nat) (w : World) :
    fast_loop k a delay n false w = w := by
  cases n <;> simp [fast_loop]

theorem setup_single (k : Kernel) (c : Nat) (hc : c < 3) (w : World) :
    ([0, 1, 2].foldl (home_setup k (1 <<< c)) (w, 0, 0)).1
      = w.emit (Event.set_direction c (w.self.home_direction c)) := by
  interval_cases c <;> simp [List.foldl, home_setup, axis_selected]

theorem fast_iteration_single (k : Kernel) (c : Nat) (hc : c < 3) (w : World)
    (hdir : w.self.home_direction c = true) (hpin : k.pin_get c w.polls = true) :
    [0, 1, 2].foldl (fast_axis k (1 <<< c)) (w, false)
      = ((w.emit (Event.pin_get c)).tick, false) := by
  interval_cases c <;> simp [List.foldl, fast_axis, axis_selected, hdir, hpin]

/-- C8. For an axis `c` (0, 1 or 2) that homes to min (`home_direction[c]` is
true): if the min endstop `pins[c]` reads triggered at the pin read of the
first iteration of the fast approach (the third poll of the call, after the
two halt checks), then `home` called with the single-axis mask `1 << c` emits
no step pulse on `c`, whatever the rates, the steps per millimeter and the
halt flag are. -/
theorem no_pulse_at_endstop (k : Kernel) (w : World) (c : Nat) (hc : c < 3)
    (hdir : w.self.home_direction c = true)
    (hpin : k.pin_get c (w.polls + 2) = true) :
    pulses_on c (events_since w (ActuatorHoming.home k (1 <<< c) w)) = [] := by
  unfold ActuatorHoming.home
  dsimp only
  by_cases h0 : k.is_halted (w.emit (Event.home (1 <<< c))).polls = true
  · rw [if_pos h0]
    rw [events_since_eq ([(w.polls, Event.home (1 <<< c))]) (by simp)]
    rfl
  · rw [if_neg h0]
    generalize hst : [0, 1, 2].foldl (home_setup k (1 <<< c))
      ((w.emit (Event.home (1 <<< c))).tick, 0, 0) = st
    have h1 := setup_single k c hc (w.emit (Event.home (1 <<< c))).tick
    rw [hst] at h1
    generalize (float_to_int (fmul32 10000000 st.2.2)).toNat = n
    generalize delayus st.2.2 st.2.1 = delay
    rw [h1]
    cases n with
    | zero =>
      rw [events_since_eq ([(w.polls, Event.home (1 <<< c)),
        (w.polls + 1, Event.set_direction c (w.self.home_direction c))])
        (by simp [fast_loop])]
      rfl
    | succ n =>
      unfold fast_loop
      rw [if_neg (by simp)]
      dsimp only
      split
      · rw [events_since_eq ([(w.polls, Event.home (1 <<< c)),
          (w.polls + 1, Event.set_direction c (w.self.home_direction c))]) (by simp)]
        rfl
      · rw [fast_iteration_single k c hc _ (by simpa using hdir) (by simpa using hpin),
          fast_loop_not_moved]
        rw [events_since_eq ([(w.polls, Event.home (1 <<< c)),
          (w.polls + 1, Event.set_direction c (w.self.home_direction c)),
          (w.polls + 2, Event.pin_get c), (w.polls + 3, Event.safe_delay_us delay)])
          (by simp)]
        rfl

theorem no_pulse_at_endstop_witness :
    pulses_on 1 (events_since (loaded quiet_kernel (order_config (cstr "XYZ")))
      (ActuatorHoming.home quiet_kernel (1 <<< 1)
        (loaded quiet_kernel (order_config (cstr "XYZ"))))) = [] :=
  no_pulse_at_endstop quiet_kernel (loaded quiet_kernel (order_config (cstr "XYZ"))) 1
    (by decide) (by with_unfolding_all decide) rfl


/-! ## Repeated letters in the order string -/

theorem toupper_of_letter {c : Nat} (h : is_axis_letter c) :
    88 ≤ toupper c ∧ toupper c ≤ 90 := by
  unfold is_axis_letter at h
  rcases h with rfl | rfl | rfl | rfl | rfl | rfl <;> decide

/-- C2, counterexample.  The order string "XXY" has length 3, is made of axis
letters and repeats X, yet `load_config` stores 16 in `homing_order`, not the
unordered sentinel 0, and the cycle makes three single-axis `home()` calls
(X, X, Y) instead of one call for all the axes. -/
theorem repeated_letter_counterexample :
    (cstr "XXY").length = 3 ∧ (∀ c ∈ cstr "XXY", is_axis_letter c)
      ∧ ¬ ((cstr "XXY").map axis_index).Nodup
      ∧ (ActuatorHoming.load_config quiet_kernel (order_config (cstr "XXY")) fresh).homing_order
          = 16
      ∧ ¬ ((ActuatorHoming.load_config quiet_kernel (order_config (cstr "XXY"))
            fresh).homing_order = 0)
      ∧ (home_calls (events_since (loaded quiet_kernel (order_config (cstr "XXY")))
          (ActuatorHoming.process_home_command quiet_kernel
            (loaded quiet_kernel (order_config (cstr "XXY")))))).map Prod.snd = [1, 1, 2] := by
  with_unfolding_all decide

/-- C2, amended.  For a 3-character order string of axis letters in which
some letter is repeated, `load_config` makes no check for the repetition:
`homing_order` is the packed value `i0 + 4*i1 + 16*i2`.  It is the unordered
sentinel 0 exactly when the three letters are all X (either case), and then a
cycle makes one `home()` call for all the axes (mask 7); otherwise it is not 0
and every `home()` call of a cycle has a single-bit mask. -/
theorem repeated_letter_amended (k : Kernel) (cfg : Config) (self : ActuatorHoming)
    (c0 c1 c2 : Nat) (hcfg : cfg.as_string "homing_order" [] = [c0, c1, c2])
    (h0 : is_axis_letter c0) (h1 : is_axis_letter c1) (h2 : is_axis_letter c2)
    (_hdup : ¬ ([c0, c1, c2].map axis_index).Nodup) :
    (ActuatorHoming.load_config k cfg self).homing_order
        = (toupper c0 - 88) + 4 * (toupper c1 - 88) + 16 * (toupper c2 - 88)
      ∧ ((ActuatorHoming.load_config k cfg self).homing_order = 0
          ↔ toupper c0 = 88 ∧ toupper c1 = 88 ∧ toupper c2 = 88)
      ∧ ∀ (env : Kernel) (w : World),
          w.self.homing_order = (ActuatorHoming.load_config k cfg self).homing_order →
          ((ActuatorHoming.load_config k cfg self).homing_order = 0 →
            home_calls (events_since w (ActuatorHoming.process_home_command env w))
              = [(w.polls, 7)])
          ∧ ((ActuatorHoming.load_config k cfg self).homing_order ≠ 0 →
            ∀ c ∈ home_calls (events_since w (ActuatorHoming.process_home_command env w)),
              c.2 = 1 ∨ c.2 = 2 ∨ c.2 = 4 ∨ c.2 = 8) := by
  have e0 := axis_index_of_letter h0
  have e1 := axis_index_of_letter h1
  have e2 := axis_index_of_letter h2
  have t0 := toupper_of_letter h0
  have t1 := toupper_of_letter h1
  have t2 := toupper_of_letter h2
  have hp := parse_three_letters h0 h1 h2
  rw [load_config_homing_order, hcfg, hp, e0.1, e1.1, e2.1]
  refine ⟨rfl, by omega, ?_⟩
  intro env w hw
  obtain ⟨w1, new, -, -, m1, -, hcalls, -, -⟩ := cycle_end env w
  rw [hcalls]
  constructor
  · intro hz
    rw [if_pos (hw.trans hz)] at m1
    exact m1
  · intro hnz
    rw [if_neg (fun h => hnz (hw.symm.trans h))] at m1
    exact m1

theorem repeated_letter_amended_witness :
    (ActuatorHoming.load_config quiet_kernel (order_config (cstr "XXY")) fresh).homing_order
        = (toupper 88 - 88) + 4 * (toupper 88 - 88) + 16 * (toupper 89 - 88)
      ∧ ((ActuatorHoming.load_config quiet_kernel (order_config (cstr "XXY")) fresh).homing_order
          = 0 ↔ toupper 88 = 88 ∧ toupper 88 = 88 ∧ toupper 89 = 88) :=
  have h := repeated_letter_amended quiet_kernel (order_config (cstr "XXY")) fresh 88 88 89
    (by decide) (by decide) (by decide) (by decide) (by decide)
  ⟨h.1, h.2.1⟩

/-! ## The code at the inputs where it departs from the specification -/

/-- C1, the code at the order string "YZX".  `load_config` packs it as
0b00001001, and the loop of `process_home_command`, which stops as soon as the
remaining value is 0, makes two `home()` calls only, with the masks 2 (Y) and
4 (Z): the trailing X, whose two bits are 00, is never homed, and the position
is reported all the same.  Likewise "ZYX" gives the masks 4 and 2 only.  For
"XYZ" the three groups 1, 2, 4 come out. -/
theorem order_ending_in_x_loses_a_group :
    (loaded quiet_kernel (order_config (cstr "YZX"))).self.homing_order = 0b00001001
      ∧ (home_calls (events_since (loaded quiet_kernel (order_config (cstr "YZX")))
          (ActuatorHoming.process_home_command quiet_kernel
            (loaded quiet_kernel (order_config (cstr "YZX")))))).map Prod.snd = [2, 4]
      ∧ position_reports (events_since (loaded quiet_kernel (order_config (cstr "YZX")))
          (ActuatorHoming.process_home_command quiet_kernel
            (loaded quiet_kernel (order_config (cstr "YZX"))))) = [(0, 0, 0)]
      ∧ (home_calls (events_since (loaded quiet_kernel (order_config (cstr "ZYX")))
          (ActuatorHoming.process_home_command quiet_kernel
            (loaded quiet_kernel (order_config (cstr "ZYX")))))).map Prod.snd = [4, 2]
      ∧ (home_calls (events_since (loaded quiet_kernel (order_config (cstr "XYZ")))
          (ActuatorHoming.process_home_command quiet_kernel
            (loaded quiet_kernel (order_config (cstr "XYZ")))))).map Prod.snd = [1, 2, 4] := by
  with_unfolding_all decide

/-- C5, the code at a cycle that runs to its end with the halt flag never up.
The controller starts with status `NOT_HOMING`; after the cycle (unordered, or
ordered by "XYZ"), with the position reported, the status is
`MOVING_TO_ENDSTOP_FAST` and the homing-status query answers true. -/
theorem status_stays_fast_after_cycle :
    (loaded quiet_kernel (order_config [])).self.status = Status.NOT_HOMING
      ∧ (ActuatorHoming.process_home_command quiet_kernel
          (loaded quiet_kernel (order_config []))).self.status = Status.MOVING_TO_ENDSTOP_FAST
      ∧ ActuatorHoming.on_get_public_data (ActuatorHoming.process_home_command quiet_kernel
          (loaded quiet_kernel (order_config []))).self = true
      ∧ position_reports (ActuatorHoming.process_home_command quiet_kernel
          (loaded quiet_kernel (order_config []))).trace = [(0, 0, 0)]
      ∧ (ActuatorHoming.process_home_command quiet_kernel
          (loaded quiet_kernel (order_config (cstr "XYZ")))).self.status
            = Status.MOVING_TO_ENDSTOP_FAST
      ∧ ActuatorHoming.on_get_public_data (ActuatorHoming.process_home_command quiet_kernel
          (loaded quiet_kernel (order_config (cstr "XYZ")))).self = true := by
  with_unfolding_all decide

/-- C9, the code at a sub-cycle of the X axis with the halt flag never up, the
endstop reached after two steps and a retract distance of 5 mm at 80 steps per
millimeter (400 steps).  The events of `home(1)` are the fast approach alone:
two pulses in the home direction, none in the inverted direction, and the
status it leaves is `MOVING_TO_ENDSTOP_FAST`, never `MOVING_BACK`. -/
theorem home_has_no_retract :
    (loaded approach_kernel (order_config [])).self.retract_mm 0
        * approach_kernel.steps_per_mm 0 = 400
      ∧ (loaded approach_kernel (order_config [])).self.home_direction 0 = true
      ∧ events_since (loaded approach_kernel (order_config []))
          (ActuatorHoming.home approach_kernel 1 (loaded approach_kernel (order_config [])))
        = [(0, Event.home 1), (1, Event.set_direction 0 true),
            (2, Event.pin_get 0), (3, Event.manual_step 0 true), (3, Event.safe_delay_us 250),
            (4, Event.pin_get 0), (5, Event.manual_step 0 true), (5, Event.safe_delay_us 250),
            (6, Event.pin_get 0), (7, Event.safe_delay_us 250)]
      ∧ (ActuatorHoming.home approach_kernel 1
          (loaded approach_kernel (order_config []))).self.status
            = Status.MOVING_TO_ENDSTOP_FAST := by
  with_unfolding_all decide

/-! ## Binary32 rounding -/

theorem ulp_search_spec (n : Nat) : ∀ (u a : ℚ),
    ∃ i : Nat, i ≤ n ∧ ulp_search n u a = u / 2 ^ i
      ∧ (i < n → u / 2 ^ i * 8388608 ≤ a)
      ∧ (0 < i → a < u / 2 ^ (i - 1) * 8388608) := by
  induction n with
  | zero =>
    intro u a
    exact ⟨0, le_refl _, by simp [ulp_search], by simp, by simp⟩
  | succ n ih =>
    intro u a
    by_cases h : u * 8388608 ≤ a
    · refine ⟨0, Nat.zero_le _, ?_, ?_, ?_⟩
      · simp [ulp_search, h]
      · intro _
        simpa using h
      · simp
    · obtain ⟨i, hi, he, h1, h2⟩ := ih (u / 2) a
      have e : ∀ m : Nat, u / 2 ^ (m + 1) = u / 2 / 2 ^ m := by
        intro m
        rw [pow_succ, div_div, mul_comm]
      refine ⟨i + 1, Nat.succ_le_succ hi, ?_, ?_, ?_⟩
      · rw [ulp_search, if_neg h, he, e]
      · intro hlt
        rw [e]
        exact h1 (Nat.lt_of_succ_lt_succ hlt)
      · intro _
        rcases Nat.eq_zero_or_pos i with h0 | hpos
        · subst h0
          simpa using not_le.mp h
        · obtain ⟨j, rfl⟩ := Nat.exists_eq_succ_of_ne_zero (Nat.pos_iff_ne_zero.mp hpos)
          have := h2 hpos
          simp only [Nat.succ_eq_add_one, Nat.add_sub_cancel] at this ⊢
          rw [e]
          exact this

theorem ulp32_spec (a : ℚ) :
    ∃ j : ℤ, -149 ≤ j ∧ j ≤ 104 ∧ ulp32 a = (2 : ℚ) ^ j
      ∧ (-149 < j → (2 : ℚ) ^ (j + 23) ≤ a)
      ∧ (j < 104 → a < (2 : ℚ) ^ (j + 24)) := by
  obtain ⟨i, hi, he, h1, h2⟩ := ulp_search_spec 253 20282409603651670423947251286016 a
  have hT : (20282409603651670423947251286016 : ℚ) = (2 : ℚ) ^ (104 : ℤ) := by norm_num
  have hB : (8388608 : ℚ) = (2 : ℚ) ^ (23 : ℤ) := by norm_num
  have hpow : ∀ m : Nat,
      (20282409603651670423947251286016 : ℚ) / 2 ^ m = (2 : ℚ) ^ ((104 : ℤ) - m) := by
    intro m
    rw [hT, zpow_sub₀ (by norm_num), zpow_natCast]
  refine ⟨104 - i, by omega, by omega, ?_, ?_, ?_⟩
  · rw [ulp32, he, hpow]
  · intro hj
    have h := h1 (by omega)
    rw [hpow, hB, ← zpow_add₀ (by norm_num)] at h
    exact h
  · intro hj
    have hpos : 0 < i := by omega
    have h := h2 hpos
    rw [hpow, hB, ← zpow_add₀ (by norm_num)] at h
    have e : (104 : ℤ) - ((i - 1 : ℕ) : ℤ) + 23 = 104 - i + 24 := by omega
    rw [e] at h
    exact h

theorem ulp32_pos (a : ℚ) : 0 < ulp32 a := by
  obtain ⟨j, _, _, he, _, _⟩ := ulp32_spec a
  rw [he]
  positivity

theorem ulp32_unique (a : ℚ) (j : ℤ) (h1 : -149 ≤ j) (h2 : j ≤ 104)
    (hlo : -149 < j → (2 : ℚ) ^ (j + 23) ≤ a) (hhi : j < 104 → a < (2 : ℚ) ^ (j + 24)) :
    ulp32 a = (2 : ℚ) ^ j := by
  obtain ⟨i, hi1, hi2, he, hilo, hihi⟩ := ulp32_spec a
  have hij : i = j := by
    rcases lt_trichotomy i j with h | h | h
    · exfalso
      have a1 := hlo (by omega)
      have a2 := hihi (by omega)
      have a3 : (2 : ℚ) ^ (i + 24) ≤ (2 : ℚ) ^ (j + 23) :=
        zpow_le_zpow_right₀ (by norm_num) (by omega)
      linarith
    · exact h
    · exfalso
      have a1 := hilo (by omega)
      have a2 := hhi (by omega)
      have a3 : (2 : ℚ) ^ (j + 24) ≤ (2 : ℚ) ^ (i + 23) :=
        zpow_le_zpow_right₀ (by norm_num) (by omega)
      linarith
  rw [he, hij]

theorem ulp32_double (a : ℚ) (hlo : (2 : ℚ) ^ (-126 : ℤ) ≤ a) (hhi : a < (2 : ℚ) ^ (127 : ℤ)) :
    ulp32 (2 * a) = 2 * ulp32 a := by
  obtain ⟨j, hj1, hj2, he, hjlo, hjhi⟩ := ulp32_spec a
  have b1 : (2 : ℚ) ^ (j + 23) ≤ a := by
    rcases eq_or_lt_of_le hj1 with h | h
    · rw [← h]
      exact hlo
    · exact hjlo h
  have hj3 : j < 104 := by
    by_contra hc
    have a3 : (2 : ℚ) ^ (127 : ℤ) ≤ (2 : ℚ) ^ (j + 23) :=
      zpow_le_zpow_right₀ (by norm_num) (by omega)
    linarith
  have b2 := hjhi hj3
  have e1 : ∀ m : ℤ, (2 : ℚ) ^ (m + 1) = 2 * (2 : ℚ) ^ m := by
    intro m
    rw [zpow_add₀ (by norm_num), zpow_one, mul_comm]
  rw [he, ← e1]
  apply ulp32_unique _ _ (by omega) (by omega)
  · intro _
    have e : j + 1 + 23 = (j + 23) + 1 := by ring
    rw [e, e1]
    linarith
  · intro _
    have e : j + 1 + 24 = (j + 24) + 1 := by ring
    rw [e, e1]
    linarith

theorem round_half_even_le (t : ℚ) (m : Nat) (h0 : 0 ≤ t) (ht : t ≤ m) :
    round_half_even t ≤ m := by
  have hf : (⌊t⌋₊ : ℚ) ≤ t := Nat.floor_le h0
  have hfm : ⌊t⌋₊ ≤ m := by exact_mod_cast hf.trans ht
  unfold round_half_even
  split_ifs with h1 h2 h3
  · exact hfm
  · have h : (⌊t⌋₊ : ℚ) < m := by linarith
    exact Nat.succ_le_of_lt (by exact_mod_cast h)
  · exact hfm
  · have h : (⌊t⌋₊ : ℚ) < m := by linarith
    exact Nat.succ_le_of_lt (by exact_mod_cast h)

theorem le_round_half_even (t : ℚ) (m : Nat) (ht : (m : ℚ) ≤ t) : m ≤ round_half_even t := by
  have hf : m ≤ ⌊t⌋₊ := Nat.le_floor ht
  unfold round_half_even
  split_ifs <;> omega

theorem round32_mag_le (a : ℚ) (n : Nat) (h0 : 0 ≤ a) (h : a ≤ n * ulp32 a) :
    round32_mag a ≤ n * ulp32 a := by
  have hu := ulp32_pos a
  have h1 : round_half_even (a / ulp32 a) ≤ n :=
    round_half_even_le _ _ (div_nonneg h0 hu.le) (by rw [div_le_iff₀ hu]; exact h)
  unfold round32_mag
  exact mul_le_mul_of_nonneg_right (by exact_mod_cast h1) hu.le

theorem le_round32_mag (a : ℚ) (n : Nat) (h : n * ulp32 a ≤ a) :
    n * ulp32 a ≤ round32_mag a := by
  have hu := ulp32_pos a
  have h1 : n ≤ round_half_even (a / ulp32 a) :=
    le_round_half_even _ _ (by rw [le_div_iff₀ hu]; exact h)
  unfold round32_mag
  exact mul_le_mul_of_nonneg_right (by exact_mod_cast h1) hu.le

theorem mul_zpow_lt (m : Nat) (k : ℤ) (hm : m < 16777216) :
    (m : ℚ) * (2 : ℚ) ^ k < (2 : ℚ) ^ (k + 24) := by
  have h1 : (m : ℚ) < (2 : ℚ) ^ (24 : ℤ) := by
    have : (m : ℚ) < 16777216 := by exact_mod_cast hm
    calc (m : ℚ) < 16777216 := this
      _ = (2 : ℚ) ^ (24 : ℤ) := by norm_num
  rw [zpow_add₀ (by norm_num), mul_comm ((2 : ℚ) ^ k)]
  exact mul_lt_mul_of_pos_right h1 (by positivity)

theorem mul_zpow_eq (m : Nat) (j k : ℤ) (hjk : j ≤ k) :
    (m : ℚ) * (2 : ℚ) ^ k = ((m * 2 ^ (k - j).toNat : ℕ) : ℚ) * (2 : ℚ) ^ j := by
  push_cast
  rw [mul_assoc, ← zpow_natCast, Int.toNat_of_nonneg (by omega), ← zpow_add₀ (by norm_num)]
  congr 2
  ring

/-- Rounding does not pass a binary32 value from below: a magnitude at most
`m * 2^k`, with `m` of 24 bits, rounds to at most `m * 2^k`. -/
theorem round32_mag_le_of_le (a : ℚ) (m : Nat) (k : ℤ) (h0 : 0 ≤ a) (hm : m < 16777216)
    (hk : -149 ≤ k) (h : a ≤ m * (2 : ℚ) ^ k) : round32_mag a ≤ m * (2 : ℚ) ^ k := by
  obtain ⟨j, hj1, hj2, he, hlo, hhi⟩ := ulp32_spec a
  have hjk : j ≤ k := by
    by_contra hc
    push_neg at hc
    have a1 := hlo (by omega)
    have a2 := mul_zpow_lt m k hm
    have a3 : (2 : ℚ) ^ (k + 24) ≤ (2 : ℚ) ^ (j + 23) :=
      zpow_le_zpow_right₀ (by norm_num) (by omega)
    linarith
  rw [mul_zpow_eq m j k hjk, ← he] at h ⊢
  exact round32_mag_le a _ h0 h

/-- Rounding does not pass a binary32 value from above. -/
theorem le_round32_mag_of_le (a : ℚ) (m : Nat) (k : ℤ) (hm : m < 16777216)
    (hk : -149 ≤ k) (h : m * (2 : ℚ) ^ k ≤ a) : m * (2 : ℚ) ^ k ≤ round32_mag a := by
  obtain ⟨j, hj1, hj2, he, hlo, hhi⟩ := ulp32_spec a
  by_cases hjk : j ≤ k
  · rw [mul_zpow_eq m j k hjk, ← he] at h ⊢
    exact le_round32_mag a _ h
  · push_neg at hjk
    have a1 := hlo (by omega)
    have a2 := mul_zpow_lt m k hm
    have a3 : (2 : ℚ) ^ (k + 24) ≤ (2 : ℚ) ^ (j + 23) :=
      zpow_le_zpow_right₀ (by norm_num) (by omega)
    have a4 : (2 : ℚ) ^ (j + 23) = ((8388608 : ℕ) : ℚ) * ulp32 a := by
      rw [he, zpow_add₀ (by norm_num), mul_comm]
      norm_num
    have a5 : ((8388608 : ℕ) : ℚ) * ulp32 a ≤ round32_mag a :=
      le_round32_mag a _ (by rw [← a4]; exact a1)
    linarith

theorem round32_mag_nonneg (a : ℚ) : 0 ≤ round32_mag a := by
  unfold round32_mag
  exact mul_nonneg (Nat.cast_nonneg _) (ulp32_pos a).le

theorem round32_mag_double (a : ℚ) (hlo : (2 : ℚ) ^ (-126 : ℤ) ≤ a)
    (hhi : a < (2 : ℚ) ^ (127 : ℤ)) : round32_mag (2 * a) = 2 * round32_mag a := by
  have hu := ulp32_pos a
  unfold round32_mag
  rw [ulp32_double a hlo hhi, mul_div_mul_left _ _ (by norm_num : (2 : ℚ) ≠ 0)]
  ring

theorem round32_of_nonneg (q : ℚ) (h0 : 0 ≤ q)
    (h : round32_mag q < 340282366920938463463374607431768211456) :
    round32 q = some (round32_mag q) := by
  unfold round32
  rw [abs_of_nonneg h0, if_neg (not_le.mpr h), if_neg (not_lt.mpr h0)]

theorem truncate_of_nonneg (q : ℚ) (h0 : 0 ≤ q) : truncate q = (⌊q⌋₊ : ℤ) := by
  unfold truncate
  rw [if_pos h0]
  exact (Int.natCast_floor_eq_floor h0).symm

theorem float_to_uint32_some (q : ℚ) (h0 : 0 ≤ q) (hr : q < 4294967296) :
    float_to_uint32 (some q) = ⌊q⌋₊ := by
  have h2 : ⌊q⌋₊ < 4294967296 := (Nat.floor_lt h0).mpr (by exact_mod_cast hr)
  unfold float_to_uint32
  simp only []
  rw [truncate_of_nonneg q h0]
  omega

/-! ## The inter-step delay -/

theorem round32_of_overflow (q : ℚ) (h0 : 0 ≤ q)
    (h : 340282366920938463463374607431768211456 ≤ round32_mag q) : round32 q = none := by
  unfold round32
  rw [abs_of_nonneg h0, if_pos h]

/-- Above 1000000 the binary32 values are 1/16 apart: a rounded magnitude
above 1000000 is at least 1000000 + 1/16. -/
theorem round32_mag_gap (x : ℚ) (h0 : 0 ≤ x) (h : 1000000 < round32_mag x) :
    16000001 / 16 ≤ round32_mag x := by
  obtain ⟨j, hj1, hj2, he, hjlo, hjhi⟩ := ulp32_spec x
  by_cases hj : j ≤ -5
  · exfalso
    have b1 : x < (2 : ℚ) ^ (j + 24) := hjhi (by omega)
    have b2 : (2 : ℚ) ^ (j + 24) ≤ (2 : ℚ) ^ (19 : ℤ) :=
      zpow_le_zpow_right₀ (by norm_num) (by omega)
    have b3 : round32_mag x ≤ ((1 : ℕ) : ℚ) * (2 : ℚ) ^ (19 : ℤ) :=
      round32_mag_le_of_le x 1 19 h0 (by norm_num) (by norm_num)
        (by rw [Nat.cast_one, one_mul]; linarith)
    have b4 : ((1 : ℕ) : ℚ) * (2 : ℚ) ^ (19 : ℤ) = 524288 := by norm_num
    rw [b4] at b3
    linarith
  · push_neg at hj
    have b1 : round32_mag x
        = ((round_half_even (x / ulp32 x) * 2 ^ (j - (-4)).toNat : ℕ) : ℚ)
          * (2 : ℚ) ^ (-4 : ℤ) := by
      rw [← mul_zpow_eq _ (-4) j (by omega), ← he]
      rfl
    have b2 : (2 : ℚ) ^ (-4 : ℤ) = 1 / 16 := by norm_num
    rw [b1, b2] at h ⊢
    have b3 : ((16000000 : ℕ) : ℚ)
        < ((round_half_even (x / ulp32 x) * 2 ^ (j - (-4)).toNat : ℕ) : ℚ) := by
      push_cast at h ⊢
      linarith
    have b4 : 16000001 ≤ round_half_even (x / ulp32 x) * 2 ^ (j - (-4)).toNat :=
      Nat.succ_le_of_lt (by exact_mod_cast b3)
    have b5 : ((16000001 : ℕ) : ℚ)
        ≤ ((round_half_even (x / ulp32 x) * 2 ^ (j - (-4)).toNat : ℕ) : ℚ) := by
      exact_mod_cast b4
    push_cast at b5 ⊢
    linarith

theorem round32_mag_le_million (x : ℚ) (h0 : 0 ≤ x) (h : x ≤ 1000000) :
    round32_mag x ≤ 1000000 := by
  have e3 : ((15625 : ℕ) : ℚ) * (2 : ℚ) ^ (6 : ℤ) = 1000000 := by norm_num
  rw [← e3]
  exact round32_mag_le_of_le x 15625 6 h0 (by norm_num) (by norm_num) (by rw [e3]; exact h)

/-- The binary32 quotient `1000000 / s` is at least 1 when `s` is at most
1000000. -/
theorem quotient_ge_one (s : ℚ) (hs : 0 < s) (h : s ≤ 1000000) :
    1 ≤ round32_mag (1000000 / s) := by
  have b1 : 1 ≤ 1000000 / s := by
    rw [le_div_iff₀ hs]
    linarith
  have e2 : ((1 : ℕ) : ℚ) * (2 : ℚ) ^ (0 : ℤ) = 1 := by norm_num
  rw [← e2]
  exact le_round32_mag_of_le _ 1 0 (by norm_num) (by norm_num) (by rw [e2]; exact b1)

/-- The binary32 quotient `1000000 / s` is below 1 when `s` is at least
1000000 + 1/16. -/
theorem quotient_lt_one (s : ℚ) (h : 16000001 / 16 ≤ s) :
    round32_mag (1000000 / s) < 1 := by
  have hs : 0 < s := lt_of_lt_of_le (by norm_num) h
  have hy0 : 0 ≤ 1000000 / s := le_of_lt (div_pos (by norm_num) hs)
  have b1 : 1000000 / s ≤ 16777215 / 16777216 := by
    rw [div_le_iff₀ hs]
    linarith
  have e2 : ((16777215 : ℕ) : ℚ) * (2 : ℚ) ^ (-24 : ℤ) = 16777215 / 16777216 := by norm_num
  have b2 : round32_mag (1000000 / s) ≤ 16777215 / 16777216 := by
    rw [← e2]
    exact round32_mag_le_of_le _ 16777215 (-24) hy0 (by norm_num) (by norm_num)
      (by rw [e2]; exact b1)
  linarith

/-- A binary32 quotient below 2^32 comes from an exact quotient below 2^32. -/
theorem quotient_lt_of_round_lt (y : ℚ) (h : round32_mag y < 4294967296) :
    y < 4294967296 := by
  by_contra hc
  push_neg at hc
  have e2 : ((1 : ℕ) : ℚ) * (2 : ℚ) ^ (32 : ℤ) = 4294967296 := by norm_num
  have b1 : ((1 : ℕ) : ℚ) * (2 : ℚ) ^ (32 : ℤ) ≤ round32_mag y :=
    le_round32_mag_of_le y 1 32 (by norm_num) (by norm_num) (by rw [e2]; exact hc)
  rw [e2] at b1
  linarith

/-- Halving an exact quotient between 1 and 2^32 halves the binary32
quotient. -/
theorem quotient_halves (s : ℚ) (hs : 0 < s) (hlo : 1 ≤ 1000000 / s)
    (hhi : 1000000 / s < 4294967296) :
    round32_mag (1000000 / (2 * s)) = round32_mag (1000000 / s) / 2 := by
  have e3 : 1000000 / s = 2 * (1000000 / (2 * s)) := by
    field_simp
    ring
  have e4 : 1000000 / (2 * s) = 1000000 / s / 2 := by
    field_simp
    ring
  have b1 : (2 : ℚ) ^ (-126 : ℤ) ≤ 1000000 / (2 * s) := by
    have h1 : (2 : ℚ) ^ (-126 : ℤ) ≤ 1 / 2 := by norm_num
    have h2 : (1 : ℚ) / 2 ≤ 1000000 / s / 2 := by linarith
    rw [e4]
    exact le_trans h1 h2
  have b2 : 1000000 / (2 * s) < (2 : ℚ) ^ (127 : ℤ) := by
    have h1 : (4294967296 : ℚ) / 2 < (2 : ℚ) ^ (127 : ℤ) := by norm_num
    have h2 : 1000000 / s / 2 ≤ 4294967296 / 2 := by linarith
    rw [e4]
    exact lt_of_le_of_lt h2 h1
  have b3 := round32_mag_double _ b1 b2
  rw [← e3] at b3
  linarith

/-- The delay when the binary32 product is an infinity: the quotient is 0. -/
theorem delayus_of_overflow (stepPermm fastSpeed : ℚ) (h0 : 0 ≤ stepPermm * fastSpeed)
    (h : 340282366920938463463374607431768211456 ≤ round32_mag (stepPermm * fastSpeed)) :
    fmul32 stepPermm fastSpeed = none
      ∧ fdiv32 1000000 (fmul32 stepPermm fastSpeed) = some 0
      ∧ delayus stepPermm fastSpeed = 0 := by
  have e : fmul32 stepPermm fastSpeed = none := round32_of_overflow _ h0 h
  refine ⟨e, ?_, ?_⟩
  · rw [e]
    rfl
  · unfold delayus
    rw [e]
    simp [fdiv32, float_to_uint32, truncate]

/-- The delay when the binary32 product `sps` is finite and not zero and the
binary32 quotient is below 2^32: the integer part of the quotient. -/
theorem delayus_of_finite (stepPermm fastSpeed : ℚ) (h0 : 0 ≤ stepPermm * fastSpeed)
    (h1 : round32_mag (stepPermm * fastSpeed) < 340282366920938463463374607431768211456)
    (h2 : 0 < round32_mag (stepPermm * fastSpeed))
    (h3 : round32_mag (1000000 / round32_mag (stepPermm * fastSpeed)) < 4294967296) :
    fmul32 stepPermm fastSpeed = some (round32_mag (stepPermm * fastSpeed))
      ∧ fdiv32 1000000 (fmul32 stepPermm fastSpeed)
          = some (round32_mag (1000000 / round32_mag (stepPermm * fastSpeed)))
      ∧ delayus stepPermm fastSpeed
          = ⌊round32_mag (1000000 / round32_mag (stepPermm * fastSpeed))⌋₊ := by
  have e : fmul32 stepPermm fastSpeed = some (round32_mag (stepPermm * fastSpeed)) :=
    round32_of_nonneg _ h0 h1
  have hy0 : 0 ≤ 1000000 / round32_mag (stepPermm * fastSpeed) :=
    le_of_lt (div_pos (by norm_num) h2)
  have e2 : fdiv32 1000000 (fmul32 stepPermm fastSpeed)
      = some (round32_mag (1000000 / round32_mag (stepPermm * fastSpeed))) := by
    rw [e]
    unfold fdiv32
    simp only []
    rw [if_neg (ne_of_gt h2)]
    exact round32_of_nonneg _ hy0 (lt_trans h3 (by norm_num))
  refine ⟨e, e2, ?_⟩
  unfold delayus
  rw [e2]
  exact float_to_uint32_some _ (round32_mag_nonneg _) h3

/-- The binary32 operations at sample inputs.  The product 3 * 333333.34375 is
the tie 1000000.03125, rounded to the even 1000000, so the delay is 1; with
the binary32 value 11184811/33554432 nearest to 1/3 the product is rounded to
1 and the delay is 1000000.  With 10498867/131072 steps per millimeter (the
binary32 value nearest to 80.1) the product of line 216 is rounded up to
801000000; with 400 steps per millimeter it is 4000000000, outside the range
of `int`. -/
theorem binary32_samples :
    delayus 3 (10666667 / 32) = 1
      ∧ delayus 3 (11184811 / 33554432) = 1000000
      ∧ delayus 80 50 = 250
      ∧ float_to_int (fmul32 10000000 (10498867 / 131072)) = 801000000
      ∧ float_to_int (fmul32 10000000 80) = 800000000
      ∧ float_to_int (fmul32 10000000 400) = -2147483648 := by
  with_unfolding_all decide

/-- C10, counterexample.  With 200 steps per millimeter and a group speed of
6000 mm/s, both positive and exact in binary32, the product is 1200000, the
quotient is below 1 and the delay is 0, not strictly positive; the `int steps`
of the same call is 2000000000, within the range of `int`.  With 1 step per
millimeter, doubling the speed from 3 to 6 takes the delay from 333333 to
166666, which is not its half. -/
theorem delayus_counterexample :
    (0 : ℚ) < 200 ∧ (0 : ℚ) < 6000 ∧ ¬ (0 < delayus 200 6000)
      ∧ float_to_int (fmul32 10000000 200) = 2000000000
      ∧ delayus 1 3 = 333333 ∧ delayus 1 (2 * 3) = 166666
      ∧ 2 * delayus 1 (2 * 3) ≠ delayus 1 3 := by
  with_unfolding_all decide

/-- C10, amended.  For positive steps per millimeter and positive group
speed, let `sps` be the binary32 product `stepPermm * fastSpeed` of line 215
and `q` the binary32 quotient `1000000.0F / sps` of line 217, and let `q` be
finite and below 2^32, so that its conversion to `uint32_t` is defined.  Then
`delayus` is the integer part of `q`; it is strictly positive exactly when
`sps` is finite and at most 1000000, which is the case whenever the exact
product is at most 1000000, and it is 0 otherwise; and doubling the speed
gives the integer half `delayus / 2` of the delay, rounded down. -/
theorem delayus_amended (stepPermm fastSpeed q : ℚ) (hs : 0 < stepPermm) (hf : 0 < fastSpeed)
    (hq : fdiv32 1000000 (fmul32 stepPermm fastSpeed) = some q) (hr : q < 4294967296) :
    delayus stepPermm fastSpeed = ⌊q⌋₊
      ∧ (0 < delayus stepPermm fastSpeed
          ↔ ∃ sps, fmul32 stepPermm fastSpeed = some sps ∧ sps ≤ 1000000)
      ∧ (stepPermm * fastSpeed ≤ 1000000 → 0 < delayus stepPermm fastSpeed)
      ∧ delayus stepPermm (2 * fastSpeed) = delayus stepPermm fastSpeed / 2 := by
  have hpos : 0 < stepPermm * fastSpeed := mul_pos hs hf
  have e2 : stepPermm * (2 * fastSpeed) = 2 * (stepPermm * fastSpeed) := by ring
  have hpos2 : 0 ≤ stepPermm * (2 * fastSpeed) := by
    rw [e2]
    linarith
  have p127 : ((1 : ℕ) : ℚ) * (2 : ℚ) ^ (127 : ℤ) = 170141183460469231731687303715884105728 := by
    norm_num
  have p128 : ((1 : ℕ) : ℚ) * (2 : ℚ) ^ (128 : ℤ) = 340282366920938463463374607431768211456 := by
    norm_num
  by_cases hinf : 340282366920938463463374607431768211456 ≤ round32_mag (stepPermm * fastSpeed)
  · -- the product is an infinity
    obtain ⟨a1, a2, a3⟩ := delayus_of_overflow stepPermm fastSpeed hpos.le hinf
    have hq0 : q = 0 := by
      rw [a2] at hq
      exact (Option.some.inj hq).symm
    have hbig : 170141183460469231731687303715884105728 < stepPermm * fastSpeed := by
      by_contra hc
      push_neg at hc
      have := round32_mag_le_of_le (stepPermm * fastSpeed) 1 127 hpos.le (by norm_num)
        (by norm_num) (by rw [p127]; exact hc)
      rw [p127] at this
      linarith
    have hinf2 : 340282366920938463463374607431768211456
        ≤ round32_mag (stepPermm * (2 * fastSpeed)) := by
      rw [← p128]
      exact le_round32_mag_of_le (stepPermm * (2 * fastSpeed)) 1 128 (by norm_num)
        (by norm_num) (by rw [p128, e2]; linarith)
    obtain ⟨-, -, c3⟩ := delayus_of_overflow stepPermm (2 * fastSpeed) hpos2 hinf2
    refine ⟨by rw [a3, hq0]; simp, ?_, ?_, by rw [c3, a3]⟩
    · rw [a3, a1]
      simp
    · intro h
      have := round32_mag_le_million _ hpos.le h
      linarith
  · -- the product is finite
    push_neg at hinf
    have a1 : fmul32 stepPermm fastSpeed = some (round32_mag (stepPermm * fastSpeed)) :=
      round32_of_nonneg _ hpos.le hinf
    have hs0 : round32_mag (stepPermm * fastSpeed) ≠ 0 := by
      intro h0
      rw [a1, h0] at hq
      simp [fdiv32] at hq
    have hspos : 0 < round32_mag (stepPermm * fastSpeed) :=
      lt_of_le_of_ne (round32_mag_nonneg _) (Ne.symm hs0)
    have hy0 : 0 ≤ 1000000 / round32_mag (stepPermm * fastSpeed) :=
      le_of_lt (div_pos (by norm_num) hspos)
    have hqe : q = round32_mag (1000000 / round32_mag (stepPermm * fastSpeed)) := by
      rw [a1] at hq
      unfold fdiv32 at hq
      simp only [] at hq
      rw [if_neg hs0] at hq
      by_cases hov : 340282366920938463463374607431768211456
          ≤ round32_mag (1000000 / round32_mag (stepPermm * fastSpeed))
      · rw [round32_of_overflow _ hy0 hov] at hq
        exact Option.noConfusion hq
      · rw [round32_of_nonneg _ hy0 (not_le.mp hov)] at hq
        exact (Option.some.inj hq).symm
    have hr2 : round32_mag (1000000 / round32_mag (stepPermm * fastSpeed)) < 4294967296 := by
      rw [← hqe]
      exact hr
    obtain ⟨-, -, a3⟩ := delayus_of_finite stepPermm fastSpeed hpos.le hinf hspos hr2
    have hiff : 0 < delayus stepPermm fastSpeed
        ↔ round32_mag (stepPermm * fastSpeed) ≤ 1000000 := by
      rw [a3, Nat.floor_pos]
      constructor
      · intro h
        by_contra hc
        have := quotient_lt_one _ (round32_mag_gap _ hpos.le (not_le.mp hc))
        linarith
      · exact quotient_ge_one _ hspos
    refine ⟨by rw [a3, hqe], ?_, fun h => hiff.mpr (round32_mag_le_million _ hpos.le h), ?_⟩
    · rw [hiff, a1]
      constructor
      · intro h
        exact ⟨_, rfl, h⟩
      · rintro ⟨sps, h1, h2⟩
        rw [Option.some.inj h1]
        exact h2
    · by_cases h6 : round32_mag (stepPermm * fastSpeed) ≤ 1000000
      · -- the delay is positive: the product doubles and the quotient halves
        have hy1 := quotient_ge_one _ hspos h6
        have hyr := quotient_lt_of_round_lt _ hr2
        have hy1e : 1 ≤ 1000000 / round32_mag (stepPermm * fastSpeed) := by
          rw [le_div_iff₀ hspos]
          linarith
        have hxhi : stepPermm * fastSpeed < (2 : ℚ) ^ (127 : ℤ) := by
          by_contra hc
          push_neg at hc
          have := le_round32_mag_of_le (stepPermm * fastSpeed) 1 127 (by norm_num)
            (by norm_num) (by rw [Nat.cast_one, one_mul]; exact hc)
          rw [p127] at this
          linarith
        have hxlo : (2 : ℚ) ^ (-126 : ℤ) ≤ stepPermm * fastSpeed := by
          by_contra hc
          push_neg at hc
          have := round32_mag_le_of_le (stepPermm * fastSpeed) 1 (-126) hpos.le (by norm_num)
            (by norm_num) (by rw [Nat.cast_one, one_mul]; exact hc.le)
          rw [Nat.cast_one, one_mul] at this
          have hsmall : (2 : ℚ) ^ (-126 : ℤ) ≤ 1 / 4294967296 := by norm_num
          have h1 : round32_mag (stepPermm * fastSpeed) ≤ 1 / 4294967296 :=
            le_trans this hsmall
          have h2 : 1000000 / round32_mag (stepPermm * fastSpeed) < 4294967296 := hyr
          rw [div_lt_iff₀ hspos] at h2
          linarith
        have c1 : round32_mag (stepPermm * (2 * fastSpeed))
            = 2 * round32_mag (stepPermm * fastSpeed) := by
          rw [e2]
          exact round32_mag_double _ hxlo hxhi
        have c2 : round32_mag (1000000 / round32_mag (stepPermm * (2 * fastSpeed)))
            = round32_mag (1000000 / round32_mag (stepPermm * fastSpeed)) / 2 := by
          rw [c1]
          exact quotient_halves _ hspos hy1e hyr
        have hqn := round32_mag_nonneg (1000000 / round32_mag (stepPermm * fastSpeed))
        obtain ⟨-, -, c3⟩ := delayus_of_finite stepPermm (2 * fastSpeed) hpos2
          (by rw [c1]; linarith) (by rw [c1]; linarith) (by rw [c2]; linarith)
        rw [c3, a3, c2]
        exact Nat.floor_div_nat _ 2
      · -- the delay is 0, and stays 0
        have hz : delayus stepPermm fastSpeed = 0 := by
          by_contra hc
          exact h6 (hiff.mp (Nat.pos_of_ne_zero hc))
        have hx6 : 1000000 < stepPermm * fastSpeed := by
          by_contra hc
          exact h6 (round32_mag_le_million _ hpos.le (not_lt.mp hc))
        have e5 : ((16000001 : ℕ) : ℚ) * (2 : ℚ) ^ (-4 : ℤ) = 16000001 / 16 := by norm_num
        have hs2 : 16000001 / 16 ≤ round32_mag (stepPermm * (2 * fastSpeed)) := by
          rw [← e5]
          exact le_round32_mag_of_le (stepPermm * (2 * fastSpeed)) 16000001 (-4) (by norm_num)
            (by norm_num) (by rw [e5, e2]; linarith)
        have hz2 : delayus stepPermm (2 * fastSpeed) = 0 := by
          by_cases hinf2 : 340282366920938463463374607431768211456
              ≤ round32_mag (stepPermm * (2 * fastSpeed))
          · exact (delayus_of_overflow stepPermm (2 * fastSpeed) hpos2 hinf2).2.2
          · have hq1 := quotient_lt_one _ hs2
            obtain ⟨-, -, c3⟩ := delayus_of_finite stepPermm (2 * fastSpeed) hpos2
              (not_le.mp hinf2) (lt_of_lt_of_le (by norm_num) hs2) (lt_trans hq1 (by norm_num))
            rw [c3, Nat.floor_eq_zero]
            exact hq1
        rw [hz2, hz]

theorem delayus_amended_witness :
    delayus 80 50 = ⌊round32_mag (1000000 / round32_mag (80 * 50))⌋₊
      ∧ (0 < delayus 80 50 ↔ ∃ sps, fmul32 80 50 = some sps ∧ sps ≤ 1000000)
      ∧ ((80 : ℚ) * 50 ≤ 1000000 → 0 < delayus 80 50)
      ∧ delayus 80 (2 * 50) = delayus 80 50 / 2 :=
  delayus_amended 80 50 (round32_mag (1000000 / round32_mag (80 * 50)))
    (by norm_num) (by norm_num)
    (delayus_of_finite 80 50 (by norm_num) (by with_unfolding_all decide)
      (by with_unfolding_all decide) (by with_unfolding_all decide)).2.1
    (by with_unfolding_all decide)

/-! ## Resolution of the configuration -/

/-- C11. For every axis `i` (0, 1, 2) with positive steps per millimeter and
each of `fast_rates`, `slow_rates`, `retract_mm`: if the millimeter-native key
is set, `load_config` stores its value, whatever the legacy key holds;
otherwise it stores the legacy value (the defaults being 4000/4000/6400,
2000/2000/3200 and 400/400/1600) divided by the steps per millimeter of the
axis.  So a legacy fast rate of 4000 at 100 steps per millimeter, with no
override, resolves to 40. -/
theorem layered_rate_resolution (k : Kernel) (cfg : Config) (self : ActuatorHoming)
    (p : Param) (i : Nat) (hi : i < 3) (_hspm : 0 < k.steps_per_mm i) :
    (∀ v, cfg.number (p.mm_key i) = some v →
        p.member (ActuatorHoming.load_config k cfg self) i = v)
      ∧ (cfg.number (p.mm_key i) = none →
          p.member (ActuatorHoming.load_config k cfg self) i
            = cfg.as_number (p.legacy_key i) (p.legacy_default i) / k.steps_per_mm i)
      ∧ (cfg.number (p.mm_key i) = none → cfg.number (p.legacy_key i) = none →
          p.member (ActuatorHoming.load_config k cfg self) i
            = p.legacy_default i / k.steps_per_mm i)
      ∧ (cfg.number (p.mm_key i) = none →
          cfg.as_number (p.legacy_key i) (p.legacy_default i) = 4000 →
          k.steps_per_mm i = 100 →
          p.member (ActuatorHoming.load_config k cfg self) i = 40) := by
  have key : p.member (ActuatorHoming.load_config k cfg self) i
      = cfg.as_number (p.mm_key i)
          (cfg.as_number (p.legacy_key i) (p.legacy_default i) / k.steps_per_mm i) := by
    cases p <;> interval_cases i <;> rfl
  rw [key]
  refine ⟨?_, ?_, ?_, ?_⟩
  · intro v hv
    simp [Config.as_number, hv]
  · intro hn
    simp [Config.as_number, hn]
  · intro hn hl
    simp [Config.as_number, hn, hl]
  · intro hn hl hs
    rw [hl, hs]
    simp [Config.as_number, hn]
    norm_num

theorem layered_rate_resolution_witness :
    (ActuatorHoming.load_config kernel_100 y_to_max_config fresh).fast_rates 1 = 40
      ∧ (ActuatorHoming.load_config kernel_100 both_keys_config fresh).fast_rates 0 = 25 :=
  ⟨(layered_rate_resolution kernel_100 y_to_max_config fresh Param.fast 1 (by decide)
      (by simp [kernel_100])).2.2.2 (by simp [y_to_max_config, Param.mm_key])
      (by simp [y_to_max_config, Param.legacy_key, Config.as_number])
      (by simp [kernel_100]),
    (layered_rate_resolution kernel_100 both_keys_config fresh Param.fast 0 (by decide)
      (by simp [kernel_100])).1 25 (by simp [both_keys_config, Param.mm_key])⟩

theorem load_config_direction (k : Kernel) (cfg : Config) (self : ActuatorHoming)
    (i : Nat) (hi : i < 3) :
    (ActuatorHoming.load_config k cfg self).home_direction i
      = decide (cfg.get_checksum (cfg.as_string (direction_key i) (cstr "home_to_min"))
          ≠ cfg.get_checksum (cstr "home_to_max")) := by
  interval_cases i <;> rfl

theorem load_config_position (k : Kernel) (cfg : Config) (self : ActuatorHoming)
    (i : Nat) (hi : i < 3) :
    (ActuatorHoming.load_config k cfg self).homing_position i
      = if (ActuatorHoming.load_config k cfg self).home_direction i = true
        then cfg.as_number (min_key i) 0 else cfg.as_number (max_key i) 200 := by
  interval_cases i <;> rfl

theorem min_key_ne_max_key (i : Nat) : min_key i ≠ max_key i := by
  unfold min_key max_key
  split <;> simp

/-- C12, counterexample.  The X axis is configured with the direction token
`imne_to_max`, which is not `home_to_max` but has the same Fletcher checksum
(both sums run over the same totals), and with a travel from 5 to 300:
`load_config` sets `home_direction[0]` to false and `homing_position[0]` to
the axis maximum 300, although the token is not `home_to_max`. -/
theorem direction_and_position_counterexample :
    colliding_config.string (direction_key 0) = some (cstr "imne_to_max")
      ∧ cstr "imne_to_max" ≠ cstr "home_to_max"
      ∧ (ActuatorHoming.load_config kernel_100 colliding_config fresh).home_direction 0 = false
      ∧ (ActuatorHoming.load_config kernel_100 colliding_config fresh).homing_position 0 = 300
      ∧ ¬ ((ActuatorHoming.load_config kernel_100 colliding_config fresh).home_direction 0
              = false
            ↔ colliding_config.string (direction_key 0) = some (cstr "home_to_max")) := by
  have h1 : colliding_config.string (direction_key 0) = some (cstr "imne_to_max") := by
    simp [colliding_config, direction_key]
  have h2 : cstr "imne_to_max" ≠ cstr "home_to_max" := by decide
  have h3 : (ActuatorHoming.load_config kernel_100 colliding_config fresh).home_direction 0
      = false := by
    rw [load_config_direction _ _ _ 0 (by decide)]
    unfold Config.as_string
    rw [h1]
    decide
  have h4 : (ActuatorHoming.load_config kernel_100 colliding_config fresh).homing_position 0
      = 300 := by
    rw [load_config_position _ _ _ 0 (by decide), h3]
    simp [colliding_config, Config.as_number, max_key]
  refine ⟨h1, h2, h3, h4, ?_⟩
  intro h
  have h5 := h.mp h3
  rw [h1] at h5
  exact h2 (Option.some.inj h5)

/-- C12, amended.  For every axis `i` (0, 1, 2): `load_config` sets
`home_direction[i]` to false iff the checksum of the configured direction
token (of `home_to_min` when the key is absent) equals the checksum of
`home_to_max`; so the token `home_to_max` gives false, and an absent key or
any other token gives true (home to min) unless its checksum is that of
`home_to_max`.  It sets `homing_position[i]` to the axis minimum (default 0)
when `home_direction[i]` is true and to the axis maximum (default 200) when it
is false; and changing the axis maximum alone does not change the position of
a home-to-min axis, nor the axis minimum alone that of a home-to-max axis. -/
theorem direction_and_position_amended (k : Kernel) (cfg : Config) (self : ActuatorHoming)
    (i : Nat) (hi : i < 3) :
    ((ActuatorHoming.load_config k cfg self).home_direction i = false
        ↔ cfg.get_checksum (cfg.as_string (direction_key i) (cstr "home_to_min"))
            = cfg.get_checksum (cstr "home_to_max"))
      ∧ (cfg.string (direction_key i) = some (cstr "home_to_max") →
          (ActuatorHoming.load_config k cfg self).home_direction i = false)
      ∧ (cfg.get_checksum (cfg.as_string (direction_key i) (cstr "home_to_min"))
            ≠ cfg.get_checksum (cstr "home_to_max") →
          (ActuatorHoming.load_config k cfg self).home_direction i = true)
      ∧ ((ActuatorHoming.load_config k cfg self).home_direction i = true →
          (ActuatorHoming.load_config k cfg self).homing_position i
            = (cfg.number (min_key i)).getD 0)
      ∧ ((ActuatorHoming.load_config k cfg self).home_direction i = false →
          (ActuatorHoming.load_config k cfg self).homing_position i
            = (cfg.number (max_key i)).getD 200)
      ∧ (∀ cfg2 : Config, cfg2.string = cfg.string → cfg2.get_checksum = cfg.get_checksum →
          (∀ key, key ≠ max_key i → cfg2.number key = cfg.number key) →
          (ActuatorHoming.load_config k cfg self).home_direction i = true →
          (ActuatorHoming.load_config k cfg2 self).homing_position i
            = (ActuatorHoming.load_config k cfg self).homing_position i)
      ∧ (∀ cfg2 : Config, cfg2.string = cfg.string → cfg2.get_checksum = cfg.get_checksum →
          (∀ key, key ≠ min_key i → cfg2.number key = cfg.number key) →
          (ActuatorHoming.load_config k cfg self).home_direction i = false →
          (ActuatorHoming.load_config k cfg2 self).homing_position i
            = (ActuatorHoming.load_config k cfg self).homing_position i) := by
  have hd := load_config_direction k cfg self i hi
  have hp := load_config_position k cfg self i hi
  have hfalse : (ActuatorHoming.load_config k cfg self).home_direction i = false
      ↔ cfg.get_checksum (cfg.as_string (direction_key i) (cstr "home_to_min"))
          = cfg.get_checksum (cstr "home_to_max") := by
    rw [hd]
    simp
  have hsame : ∀ cfg2 : Config, cfg2.string = cfg.string →
      cfg2.get_checksum = cfg.get_checksum →
      (ActuatorHoming.load_config k cfg2 self).home_direction i
        = (ActuatorHoming.load_config k cfg self).home_direction i := by
    intro cfg2 hs hc
    rw [load_config_direction k cfg2 self i hi, hd]
    unfold Config.as_string
    rw [hs, hc]
  refine ⟨hfalse, ?_, ?_, ?_, ?_, ?_, ?_⟩
  · intro htok
    rw [hfalse]
    unfold Config.as_string
    rw [htok]
    rfl
  · intro hne
    cases hdir : (ActuatorHoming.load_config k cfg self).home_direction i with
    | true => rfl
    | false => exact absurd (hfalse.mp hdir) hne
  · intro hdir
    rw [hp, if_pos hdir]
    rfl
  · intro hdir
    rw [hp, if_neg (by simp [hdir])]
    rfl
  · intro cfg2 hs hc hnum hdir
    rw [load_config_position k cfg2 self i hi, hsame cfg2 hs hc, hp, if_pos hdir, if_pos hdir]
    unfold Config.as_number
    rw [hnum (min_key i) (min_key_ne_max_key i)]
  · intro cfg2 hs hc hnum hdir
    rw [load_config_position k cfg2 self i hi, hsame cfg2 hs hc, hp,
      if_neg (by simp [hdir]), if_neg (by simp [hdir])]
    unfold Config.as_number
    rw [hnum (max_key i) (fun h => min_key_ne_max_key i h.symm)]

theorem direction_and_position_amended_witness :
    (ActuatorHoming.load_config kernel_100 y_to_max_config fresh).home_direction 1 = false
      ∧ (ActuatorHoming.load_config kernel_100 y_to_max_config fresh).homing_position 1
          = (y_to_max_config.number (max_key 1)).getD 200
      ∧ (ActuatorHoming.load_config kernel_100 y_to_max_config fresh).home_direction 0 = true :=
  ⟨(direction_and_position_amended kernel_100 y_to_max_config fresh 1 (by decide)).2.1
      (by simp [y_to_max_config, direction_key]),
    (direction_and_position_amended kernel_100 y_to_max_config fresh 1 (by decide)).2.2.2.2.1
      ((direction_and_position_amended kernel_100 y_to_max_config fresh 1 (by decide)).2.1
        (by simp [y_to_max_config, direction_key])),
    (direction_and_position_amended kernel_100 y_to_max_config fresh 0 (by decide)).2.2.1
      (by with_unfolding_all decide)⟩

/-! ## The groups of an ordered cycle -/

theorem packed_fields (a b c : Nat) (ha : a ≤ 2) (hb : b ≤ 2) (hc : c ≤ 2) :
    (((0 ||| a <<< 0) % 256 ||| b <<< (0 + 2)) % 256 ||| c <<< (0 + 2 + 2)) % 256
      = a + 4 * b + 16 * c := by
  interval_cases a <;> interval_cases b <;> interval_cases c <;> decide

/-- Whatever the order string, the packed order is `i0 + 4*i1 + 16*i2` with
each of `i0`, `i1`, `i2` at most 2. -/
theorem parse_homing_order_cases (order : List Nat) :
    ∃ i0 i1 i2, i0 ≤ 2 ∧ i1 ≤ 2 ∧ i2 ≤ 2
      ∧ parse_homing_order order = i0 + 4 * i1 + 16 * i2 := by
  unfold parse_homing_order
  by_cases hlen : order.length = 3
  · rw [if_pos hlen]
    match order, hlen with
    | [c0, c1, c2], _ =>
      by_cases h0 : 2 < axis_index c0
      · exact ⟨0, 0, 0, by omega, by omega, by omega, by simp [order_loop, h0]⟩
      · by_cases h1 : 2 < axis_index c1
        · exact ⟨0, 0, 0, by omega, by omega, by omega, by simp [order_loop, h0, h1]⟩
        · by_cases h2 : 2 < axis_index c2
          · exact ⟨0, 0, 0, by omega, by omega, by omega, by simp [order_loop, h0, h1, h2]⟩
          · refine ⟨axis_index c0, axis_index c1, axis_index c2, by omega, by omega,
              by omega, ?_⟩
            have hp := packed_fields (axis_index c0) (axis_index c1) (axis_index c2)
              (by omega) (by omega) (by omega)
            simp only [order_loop, gt_iff_lt, if_neg h0, if_neg h1, if_neg h2]
            exact hp
  · rw [if_neg hlen]
    exact ⟨0, 0, 0, by omega, by omega, by omega, rfl⟩

theorem packed_valid (a b c : Nat) (ha : a ≤ 2) (hb : b ≤ 2) (hc : c ≤ 2) :
    valid_order (a + 4 * b + 16 * c) := by
  intro i
  by_cases hi : i < 3
  · interval_cases i <;> interval_cases a <;> interval_cases b <;> interval_cases c <;> decide
  · have hlt : a + 4 * b + 16 * c < 2 ^ (2 * i) := by
      have h64 : 2 ^ 6 ≤ 2 ^ (2 * i) := Nat.pow_le_pow_right (by norm_num) (by omega)
      have : (2 : Nat) ^ 6 = 64 := by norm_num
      omega
    rw [Nat.shiftRight_eq_div_pow, Nat.div_eq_of_lt hlt]
    simp

theorem valid_order_shift {m : Nat} (h : valid_order m) : valid_order (m >>> 2) := by
  intro i
  have := h (i + 1)
  rw [show 2 * (i + 1) = 2 + 2 * i by ring, Nat.shiftRight_add] at this
  exact this

theorem valid_mask {m : Nat} (h : valid_order m) :
    1 <<< (m &&& 3) = 1 ∨ 1 <<< (m &&& 3) = 2 ∨ 1 <<< (m &&& 3) = 4 := by
  have h0 : m &&& 3 ≤ 2 := by simpa using h 0
  generalize m &&& 3 = x at h0
  interval_cases x <;> decide

/-- The `home()` calls of the ordered loop: at most `j` of them when the
packed order is below `4^j`, with the masks 1, 2 or 4 when every field of the
order is an axis index. -/
theorem home_in_order_calls (k : Kernel) :
    ∀ (n m : Nat) (w : World),
      ∃ new, (home_in_order k n m w).trace = w.trace ++ new
        ∧ (∀ j, m < 4 ^ j → (home_calls new).length ≤ j)
        ∧ (valid_order m → ∀ c ∈ home_calls new, c.2 = 1 ∨ c.2 = 2 ∨ c.2 = 4) := by
  intro n
  induction n with
  | zero =>
    intro m w
    exact ⟨[], by simp [home_in_order], by simp [home_calls], by simp [home_calls]⟩
  | succ n ih =>
    intro m w
    unfold home_in_order
    by_cases hm : m = 0
    · rw [if_pos hm]
      exact ⟨[], by simp, by simp [home_calls], by simp [home_calls]⟩
    · rw [if_neg hm]
      dsimp only
      obtain ⟨nh, eh, ch, -⟩ := home_events k (1 <<< (m &&& 3)) w
      have hj : ∀ j, m < 4 ^ j → 1 ≤ j ∧ m >>> 2 < 4 ^ (j - 1) := by
        intro j hlt
        cases j with
        | zero => simp at hlt; exact absurd hlt hm
        | succ j =>
          refine ⟨by omega, ?_⟩
          rw [Nat.shiftRight_eq_div_pow, Nat.add_sub_cancel,
            Nat.div_lt_iff_lt_mul (by norm_num)]
          have : 4 ^ (j + 1) = 4 ^ j * 4 := pow_succ 4 j
          omega
      generalize ActuatorHoming.home k (1 <<< (m &&& 3)) w = w1 at eh
      have hp : home_calls [(w1.polls, Event.printf "Homing %d \r\n" [1 <<< (m &&& 3)])]
          = [] := rfl
      by_cases hh : k.is_halted (w1.emit
          (Event.printf "Homing %d \r\n" [1 <<< (m &&& 3)])).polls = true
      · rw [if_pos hh]
        refine ⟨nh ++ [(w1.polls, Event.printf "Homing %d \r\n" [1 <<< (m &&& 3)])],
          by simp [eh], ?_, ?_⟩
        · intro j hlt
          rw [home_calls_append, ch, hp]
          exact (hj j hlt).1
        · intro hv c hc
          rw [home_calls_append, ch, hp] at hc
          simp at hc
          rw [hc]
          exact valid_mask hv
      · rw [if_neg hh]
        obtain ⟨nr, er, lr, mr⟩ := ih (m >>> 2)
          (w1.emit (Event.printf "Homing %d \r\n" [1 <<< (m &&& 3)])).tick
        refine ⟨nh ++ [(w1.polls, Event.printf "Homing %d \r\n" [1 <<< (m &&& 3)])] ++ nr,
          by rw [er]; simp [eh], ?_, ?_⟩
        · intro j hlt
          rw [home_calls_append, home_calls_append, ch, hp]
          have := lr (j - 1) (hj j hlt).2
          have h1 := (hj j hlt).1
          simp only [List.append_nil, List.singleton_append, List.length_cons]
          omega
        · intro hv c hc
          rw [home_calls_append, home_calls_append, ch, hp] at hc
          simp only [List.append_nil, List.singleton_append, List.mem_cons] at hc
          rcases hc with rfl | hc
          · exact valid_mask hv
          · exact mr (valid_order_shift hv) c hc

/-- The `home()` calls of an ordered cycle are those of its ordered loop. -/
theorem cycle_calls_ordered (k : Kernel) (w : World) (ho : w.self.homing_order ≠ 0)
    (new : List (Nat × Event))
    (hnew : (home_in_order k 4 (w.self.homing_order % 256)
        ((w.emit (Event.printf "Start homing\r\n" [])).emit Event.wait_for_idle)).trace
      = ((w.emit (Event.printf "Start homing\r\n" [])).emit Event.wait_for_idle).trace ++ new) :
    home_calls (events_since w (ActuatorHoming.process_home_command k w)) = home_calls new := by
  unfold ActuatorHoming.process_home_command
  dsimp only
  simp only [emit_self]
  rw [if_pos ho]
  generalize home_in_order k 4 (w.self.homing_order % 256)
    ((w.emit (Event.printf "Start homing\r\n" [])).emit Event.wait_for_idle) = w1 at hnew
  have e1 : w1.trace = w.trace ++ ([(w.polls, Event.printf "Start homing\r\n" []),
      (w.polls, Event.wait_for_idle)] ++ new) := by
    rw [hnew]; simp
  split
  · split
    · rw [events_since_eq ([(w.polls, Event.printf "Start homing\r\n" []),
        (w.polls, Event.wait_for_idle)] ++ new ++ [(w1.polls + 1,
          Event.streams_printf "Homing cycle aborted by kill\n")]) (by simp [e1]),
        home_calls_append, home_calls_append]
      simp [home_calls]
    · rw [events_since_eq ([(w.polls, Event.printf "Start homing\r\n" []),
        (w.polls, Event.wait_for_idle)] ++ new) (by simp [e1]), home_calls_append]
      simp [home_calls]
  · rw [events_since_eq ([(w.polls, Event.printf "Start homing\r\n" []),
      (w.polls, Event.wait_for_idle)] ++ new ++ [(w1.polls + 1,
        Event.reset_actuator_position (w1.self.homing_position 0)
          (w1.self.homing_position 1) (w1.self.homing_position 2))]) (by simp [e1]),
      home_calls_append, home_calls_append]
    simp [home_calls]

/-- The `home()` calls of a cycle whose order was produced by `load_config`:
at most three, and in the ordered case with the masks 1, 2 or 4. -/
theorem cycle_calls_loaded (k : Kernel) (w : World) (order : List Nat)
    (hw : w.self.homing_order = parse_homing_order order) :
    (w.self.homing_order ≠ 0 →
        ∀ c ∈ home_calls (events_since w (ActuatorHoming.process_home_command k w)),
          c.2 = 1 ∨ c.2 = 2 ∨ c.2 = 4)
      ∧ (home_calls (events_since w (ActuatorHoming.process_home_command k w))).length ≤ 3 := by
  obtain ⟨i0, i1, i2, h0, h1, h2, hp⟩ := parse_homing_order_cases order
  have hval : valid_order (w.self.homing_order % 256) := by
    rw [hw, hp, Nat.mod_eq_of_lt (by omega)]
    exact packed_valid i0 i1 i2 h0 h1 h2
  have hlt : w.self.homing_order % 256 < 4 ^ 3 := by
    rw [hw, hp, Nat.mod_eq_of_lt (by omega)]
    norm_num
    omega
  by_cases ho : w.self.homing_order ≠ 0
  · obtain ⟨new, enew, lnew, mnew⟩ := home_in_order_calls k 4 (w.self.homing_order % 256)
      ((w.emit (Event.printf "Start homing\r\n" [])).emit Event.wait_for_idle)
    rw [cycle_calls_ordered k w ho new enew]
    exact ⟨fun _ => mnew hval, lnew 3 hlt⟩
  · obtain ⟨w1, new, -, -, m1, -, hcalls, -, -⟩ := cycle_end k w
    rw [if_pos (not_not.mp ho)] at m1
    rw [hcalls, m1]
    exact ⟨fun h => absurd h ho, by simp⟩

/-- C19. Whatever the order string, the `homing_order` that `load_config`
stores has each of its three low two-bit fields in 0, 1, 2 and its top two
bits zero, so it is at most 0b00101010.  Hence in a cycle of a controller
holding that order, every group mask passed to `home()` in the ordered case is
1, 2 or 4, and `home()` is invoked at most 3 times. -/
theorem decoded_groups_valid (k : Kernel) (cfg : Config) (self : ActuatorHoming) :
    (ActuatorHoming.load_config k cfg self).homing_order &&& 3 ≤ 2
      ∧ ((ActuatorHoming.load_config k cfg self).homing_order >>> 2) &&& 3 ≤ 2
      ∧ ((ActuatorHoming.load_config k cfg self).homing_order >>> 4) &&& 3 ≤ 2
      ∧ (ActuatorHoming.load_config k cfg self).homing_order >>> 6 = 0
      ∧ (ActuatorHoming.load_config k cfg self).homing_order ≤ 0b00101010
      ∧ ∀ (env : Kernel) (w : World),
          w.self.homing_order = (ActuatorHoming.load_config k cfg self).homing_order →
          (w.self.homing_order ≠ 0 →
            ∀ c ∈ home_calls (events_since w (ActuatorHoming.process_home_command env w)),
              c.2 = 1 ∨ c.2 = 2 ∨ c.2 = 4)
          ∧ (home_calls
              (events_since w (ActuatorHoming.process_home_command env w))).length ≤ 3 := by
  rw [load_config_homing_order]
  obtain ⟨i0, i1, i2, h0, h1, h2, hp⟩ :=
    parse_homing_order_cases (cfg.as_string "homing_order" [])
  have hv := packed_valid i0 i1 i2 h0 h1 h2
  rw [← hp] at hv
  refine ⟨by simpa using hv 0, by simpa using hv 1, by simpa using hv 2, ?_, ?_, ?_⟩
  · rw [hp, Nat.shiftRight_eq_div_pow]
    exact Nat.div_eq_of_lt (by norm_num; omega)
  · rw [hp]
    omega
  · intro env w hw
    exact cycle_calls_loaded env w (cfg.as_string "homing_order" []) hw

theorem decoded_groups_valid_witness :
    (home_calls (events_since (loaded quiet_kernel (order_config (cstr "ZXY")))
        (ActuatorHoming.process_home_command quiet_kernel
          (loaded quiet_kernel (order_config (cstr "ZXY")))))).length ≤ 3
      ∧ (ActuatorHoming.load_config quiet_kernel (order_config (cstr "ZXY"))
          fresh).homing_order ≤ 0b00101010 :=
  ⟨((decoded_groups_valid quiet_kernel (order_config (cstr "ZXY")) fresh).2.2.2.2.2
      quiet_kernel (loaded quiet_kernel (order_config (cstr "ZXY"))) rfl).2,
    (decoded_groups_valid quiet_kernel (order_config (cstr "ZXY")) fresh).2.2.2.2.1⟩

/-! ## One iteration of the fast approach -/

theorem pulses_on_append (c : Nat) (a b : List (Nat × Event)) :
    pulses_on c (a ++ b) = pulses_on c a ++ pulses_on c b := by
  simp [pulses_on, List.filterMap_append]

theorem pin_reads_append (a b : List (Nat × Event)) :
    pin_reads (a ++ b) = pin_reads a ++ pin_reads b := by
  simp [pin_reads, List.filterMap_append]

theorem delays_append (a b : List (Nat × Event)) : delays (a ++ b) = delays a + delays b := by
  simp [delays, List.filter_append]

/-- What the loop body does for one axis `d`: nothing when the axis is not in
the group; otherwise one poll, a read of its homing-side pin, and one pulse in
its home direction exactly when the pin reads untriggered. -/
theorem fast_axis_step (k : Kernel) (a : Nat) (st : World × Bool) (d : Nat) :
    ∃ new, (fast_axis k a st d).1.trace = st.1.trace ++ new
      ∧ (fast_axis k a st d).1.polls = st.1.polls + (if axis_selected a d = true then 1 else 0)
      ∧ (fast_axis k a st d).1.self = st.1.self
      ∧ (∀ c, pulses_on c new
          = if d = c ∧ axis_selected a d = true
              ∧ k.pin_get (homing_pin st.1.self d) st.1.polls = false
            then [st.1.self.home_direction d] else [])
      ∧ pin_reads new = (if axis_selected a d = true then [homing_pin st.1.self d] else [])
      ∧ delays new = 0
      ∧ (fast_axis k a st d).2
          = (st.2 || (axis_selected a d && !k.pin_get (homing_pin st.1.self d) st.1.polls)) := by
  unfold fast_axis homing_pin
  by_cases hs : axis_selected a d = true
  · rw [if_pos hs]
    dsimp only
    generalize d + 3 * (if st.1.self.home_direction d = true then 0 else 1) = index
    cases hl : k.pin_get index st.1.polls with
    | true =>
      refine ⟨[(st.1.polls, Event.pin_get index)], by simp, by simp [hs], by simp, ?_,
        by simp [hs, pin_reads], by simp [delays], by simp [hs]⟩
      intro c
      simp [pulses_on]
    | false =>
      refine ⟨[(st.1.polls, Event.pin_get index),
          (st.1.polls + 1, Event.manual_step d (st.1.self.home_direction d))],
        by simp, by simp [hs], by simp, ?_, by simp [hs, pin_reads], by simp [delays],
        by simp [hs]⟩
      intro c
      by_cases hc : d = c
      · simp [pulses_on, hc, hs]
        rw [← hc]
        simp [hs]
      · simp [pulses_on, hc]
  · rw [if_neg hs]
    refine ⟨[], by simp, by simp [hs], rfl, ?_, by simp [hs, pin_reads], by simp [delays],
      by simp [hs]⟩
    intro c
    simp [pulses_on, hs]

theorem read_poll_zero (a p : Nat) : read_poll a 0 p = p := by
  simp [read_poll]

theorem read_poll_one (a p : Nat) :
    read_poll a 1 p = p + (if axis_selected a 0 = true then 1 else 0) := by
  unfold read_poll
  by_cases h0 : axis_selected a 0 = true <;> simp [List.range_succ, List.filter, h0]

theorem read_poll_two (a p : Nat) :
    read_poll a 2 p = p + (if axis_selected a 0 = true then 1 else 0)
      + (if axis_selected a 1 = true then 1 else 0) := by
  unfold read_poll
  by_cases h0 : axis_selected a 0 = true <;> by_cases h1 : axis_selected a 1 = true <;>
    simp [List.range_succ, List.filter, h0, h1]

theorem read_poll_three (a p : Nat) :
    read_poll a 3 p = p + (if axis_selected a 0 = true then 1 else 0)
      + (if axis_selected a 1 = true then 1 else 0)
      + (if axis_selected a 2 = true then 1 else 0) := by
  unfold read_poll
  by_cases h0 : axis_selected a 0 = true <;> by_cases h1 : axis_selected a 1 = true <;>
    by_cases h2 : axis_selected a 2 = true <;>
      simp [List.range_succ, List.filter, h0, h1, h2]

/-- What one iteration does between its halt check and its delay.  Each axis
`c` of the group has its homing-side pin read once, at the poll
`read_poll a c w.polls`, and receives exactly one pulse, in its home direction,
iff that read is untriggered; an axis outside the group receives none; no
other pin is read; and `movedAxis` ends true iff some axis was stepped. -/
theorem iteration_spec (k : Kernel) (a : Nat) (w : World) :
    ∃ new, (iteration k a w).1.trace = w.trace ++ new
      ∧ (iteration k a w).1.self = w.self
      ∧ (iteration k a w).1.polls = read_poll a 3 w.polls
      ∧ (∀ c, c < 3 → pulses_on c new
          = if axis_selected a c = true
              ∧ k.pin_get (homing_pin w.self c) (read_poll a c w.polls) = false
            then [w.self.home_direction c] else [])
      ∧ (∀ c, 3 ≤ c → pulses_on c new = [])
      ∧ pin_reads new
          = (if axis_selected a 0 = true then [homing_pin w.self 0] else [])
            ++ (if axis_selected a 1 = true then [homing_pin w.self 1] else [])
            ++ (if axis_selected a 2 = true then [homing_pin w.self 2] else [])
      ∧ delays new = 0
      ∧ ((iteration k a w).2 = true
          ↔ ∃ c, c < 3 ∧ axis_selected a c = true
              ∧ k.pin_get (homing_pin w.self c) (read_poll a c w.polls) = false) := by
  unfold iteration
  simp only [List.foldl]
  obtain ⟨n0, t0, p0, s0, u0, r0, d0, m0⟩ := fast_axis_step k a (w, false) 0
  obtain ⟨n1, t1, p1, s1, u1, r1, d1, m1⟩ := fast_axis_step k a (fast_axis k a (w, false) 0) 1
  obtain ⟨n2, t2, p2, s2, u2, r2, d2, m2⟩ :=
    fast_axis_step k a (fast_axis k a (fast_axis k a (w, false) 0) 1) 2
  generalize fast_axis k a (w, false) 0 = st1 at *
  generalize fast_axis k a st1 1 = st2 at *
  generalize fast_axis k a st2 2 = st3 at *
  simp only at t0 p0 s0 u0 r0 m0
  rw [s0] at s1 u1 r1 m1
  rw [s1] at s2 u2 r2 m2
  rw [p0] at p1 u1 m1
  rw [p1] at p2 u2 m2
  rw [← read_poll_three] at p2
  rw [← read_poll_two] at p1 u2 m2
  rw [← read_poll_one] at p0 u1 m1
  have z0 : w.polls = read_poll a 0 w.polls := (read_poll_zero a w.polls).symm
  refine ⟨n0 ++ n1 ++ n2, ?_, ?_, p2, ?_, ?_, ?_, ?_, ?_⟩
  · rw [t2, t1, t0]; simp
  · rw [s2]
  · intro c hc
    rw [pulses_on_append, pulses_on_append, u0, u1, u2]
    interval_cases c
    · rw [← z0]; simp
    · simp
    · simp
  · intro c hc
    rw [pulses_on_append, pulses_on_append, u0, u1, u2]
    have h0 : ¬ (0 = c) := by omega
    have h1 : ¬ (1 = c) := by omega
    have h2 : ¬ (2 = c) := by omega
    simp [h0, h1, h2]
  · rw [pin_reads_append, pin_reads_append, r0, r1, r2]
  · rw [delays_append, delays_append, d0, d1, d2]
  · rw [m2, m1, m0]
    constructor
    · intro h
      simp only [Bool.false_or, Bool.or_eq_true, Bool.and_eq_true, Bool.not_eq_true'] at h
      rcases h with (h | h) | h
      · exact ⟨0, by omega, h.1, by rw [← z0]; exact h.2⟩
      · exact ⟨1, by omega, h.1, h.2⟩
      · exact ⟨2, by omega, h.1, h.2⟩
    · rintro ⟨c, hc, hs, hl⟩
      simp only [Bool.false_or, Bool.or_eq_true, Bool.and_eq_true, Bool.not_eq_true']
      interval_cases c
      · exact Or.inl (Or.inl ⟨hs, by rw [z0]; exact hl⟩)
      · exact Or.inl (Or.inr ⟨hs, hl⟩)
      · exact Or.inr ⟨hs, hl⟩

/-! ## The events of a group -/

theorem InGroup.group_refl (a : Nat) (w : World) : InGroup a w w :=
  ⟨⟨[], by simp, by simp⟩, rfl, Nat.le_refl _⟩

theorem InGroup.group_trans {a : Nat} {w w1 w2 : World} (h1 : InGroup a w w1)
    (h2 : InGroup a w1 w2) : InGroup a w w2 := by
  obtain ⟨⟨n1, e1, p1⟩, s1, l1⟩ := h1
  obtain ⟨⟨n2, e2, p2⟩, s2, l2⟩ := h2
  refine ⟨⟨n1 ++ n2, by rw [e2, e1, List.append_assoc], ?_⟩, s2.trans s1, Nat.le_trans l1 l2⟩
  intro e he
  rcases List.mem_append.mp he with h | h
  · exact p1 e h
  · have := p2 e h
    rw [s1] at this
    exact this

theorem InGroup.group_emit (a : Nat) (w : World) (e : Event)
    (he : group_event a w.self.home_direction e) : InGroup a w (w.emit e) :=
  ⟨⟨[(w.polls, e)], rfl, by simpa using he⟩, rfl, Nat.le_refl _⟩

theorem InGroup.group_tick (a : Nat) (w : World) : InGroup a w w.tick :=
  ⟨⟨[], by simp, by simp⟩, rfl, Nat.le_succ _⟩

/-- A change of `status` alone does not matter to the events of a group. -/
theorem InGroup.of_status {a : Nat} {w w1 : World} (st : Status)
    (h : InGroup a { w with self := { w.self with status := st } } w1) :
    (∃ new, w1.trace = w.trace ++ new ∧ ∀ e ∈ new, group_event a w.self.home_direction e.2)
      ∧ w1.self = { w.self with status := st } ∧ w.polls ≤ w1.polls :=
  h

theorem home_setup_in_group (k : Kernel) (a : Nat) (st : World × ℚ × ℚ) (c : Nat)
    (hc : c < 3) : InGroup a st.1 (home_setup k a st c).1 := by
  unfold home_setup
  by_cases hs : axis_selected a c = true
  · rw [if_pos hs]
    exact InGroup.group_emit a _ (Event.set_direction c (st.1.self.home_direction c)) ⟨hc, hs, rfl⟩
  · rw [if_neg hs]
    exact InGroup.group_refl a _

theorem fast_axis_in_group (k : Kernel) (a : Nat) (st : World × Bool) (c : Nat)
    (hc : c < 3) : InGroup a st.1 (fast_axis k a st c).1 := by
  unfold fast_axis
  by_cases hs : axis_selected a c = true
  · rw [if_pos hs]
    dsimp only
    have h1 : InGroup a st.1 (st.1.emit (Event.pin_get
        (c + 3 * (if st.1.self.home_direction c = true then 0 else 1)))).tick :=
      (InGroup.group_emit a _ (Event.pin_get _) ⟨c, hc, hs, rfl⟩).group_trans (InGroup.group_tick a _)
    by_cases hl : (!k.pin_get (c + 3 * (if st.1.self.home_direction c = true then 0 else 1))
        st.1.polls) = true
    · rw [if_pos hl]
      exact h1.group_trans (InGroup.group_emit a _ (Event.manual_step c _) ⟨hc, hs, rfl⟩)
    · rw [if_neg hl]
      exact h1
  · rw [if_neg hs]
    exact InGroup.group_refl a _

theorem iteration_in_group (k : Kernel) (a : Nat) (w : World) :
    InGroup a w (iteration k a w).1 := by
  unfold iteration
  simp only [List.foldl]
  exact (fast_axis_in_group k a _ 0 (by omega)).group_trans
    ((fast_axis_in_group k a _ 1 (by omega)).group_trans
      (fast_axis_in_group k a _ 2 (by omega)))

theorem fast_loop_unfold (k : Kernel) (a delay n : Nat) (w : World)
    (hh : k.is_halted w.polls = false) :
    fast_loop k a delay (n + 1) true w
      = fast_loop k a delay n (iteration k a w.tick).2
          ((iteration k a w.tick).1.emit (Event.safe_delay_us delay)) := by
  conv_lhs => unfold fast_loop
  simp [hh, iteration]

theorem fast_loop_in_group (k : Kernel) (a delay : Nat) :
    ∀ (n : Nat) (moved : Bool) (w : World), InGroup a w (fast_loop k a delay n moved w) := by
  intro n
  induction n with
  | zero => intro moved w; exact InGroup.group_refl a w
  | succ n ih =>
    intro moved w
    cases moved with
    | false => rw [fast_loop_not_moved]; exact InGroup.group_refl a w
    | true =>
      cases hh : k.is_halted w.polls with
      | true =>
        unfold fast_loop
        simp only [Bool.not_true, hh, if_true]
        exact InGroup.group_tick a w
      | false =>
        rw [fast_loop_unfold k a delay n w hh]
        exact (InGroup.group_tick a w).group_trans ((iteration_in_group k a _).group_trans
          ((InGroup.group_emit a _ (Event.safe_delay_us delay) trivial).group_trans (ih _ _)))

/-- Every event of a call of `home` after its entry is an event of its group,
for the directions the controller holds at the call. -/
theorem home_group (k : Kernel) (a : Nat) (w : World) :
    ∃ new, (ActuatorHoming.home k a w).trace = w.trace ++ (w.polls, Event.home a) :: new
      ∧ ∀ e ∈ new, group_event a w.self.home_direction e.2 := by
  unfold ActuatorHoming.home
  dsimp only
  by_cases hh : k.is_halted (w.emit (Event.home a)).polls = true
  · rw [if_pos hh]
    exact ⟨[], by simp, by simp⟩
  · rw [if_neg hh]
    simp only [List.foldl]
    have s0 := home_setup_in_group k a ((w.emit (Event.home a)).tick, 0, 0) 0 (by omega)
    have s1 := home_setup_in_group k a
      (home_setup k a ((w.emit (Event.home a)).tick, 0, 0) 0) 1 (by omega)
    have s2 := home_setup_in_group k a
      (home_setup k a (home_setup k a ((w.emit (Event.home a)).tick, 0, 0) 0) 1) 2 (by omega)
    have hs := (s0.group_trans s1).group_trans s2
    generalize home_setup k a
      (home_setup k a (home_setup k a ((w.emit (Event.home a)).tick, 0, 0) 0) 1) 2 = st at hs
    obtain ⟨⟨n1, e1, p1⟩, hself, -⟩ := hs
    have hl := InGroup.of_status Status.MOVING_TO_ENDSTOP_FAST
      (fast_loop_in_group k a (delayus st.2.2 st.2.1)
        (float_to_int (fmul32 10000000 st.2.2)).toNat true
        { st.1 with self := { st.1.self with status := Status.MOVING_TO_ENDSTOP_FAST } })
    obtain ⟨⟨n2, e2, p2⟩, -, -⟩ := hl
    refine ⟨n1 ++ n2, ?_, ?_⟩
    · rw [e2]
      simp only [e1]
      simp
    · intro e he
      rcases List.mem_append.mp he with h | h
      · exact p1 e h
      · have := p2 e h
        rw [hself] at this
        exact this

/-! ## Counting iterations and pulses -/

theorem home_setup_values (k : Kernel) (a : Nat) (st : World × ℚ × ℚ) (c : Nat) :
    (home_setup k a st c).1.self = st.1.self
      ∧ (home_setup k a st c).2.1
          = (if axis_selected a c = true then
              (if st.2.1 = 0 ∨ st.1.self.fast_rates c < st.2.1 then st.1.self.fast_rates c
               else st.2.1)
             else st.2.1)
      ∧ (home_setup k a st c).2.2
          = (if axis_selected a c = true then
              (if st.2.2 = 0 ∨ k.steps_per_mm c < st.2.2 then k.steps_per_mm c else st.2.2)
             else st.2.2) := by
  unfold home_setup
  by_cases hs : axis_selected a c = true
  · rw [if_pos hs, if_pos hs, if_pos hs]
    exact ⟨rfl, rfl, rfl⟩
  · rw [if_neg hs, if_neg hs, if_neg hs]
    exact ⟨rfl, rfl, rfl⟩

theorem cadence_min_step (a n : Nat) (rate : Nat → ℚ) (x : ℚ) (h : cadence_min a n rate x)
    (hp : axis_selected a n = true → 0 < rate n) :
    cadence_min a (n + 1) rate
      (if axis_selected a n = true then (if x = 0 ∨ rate n < x then rate n else x) else x) := by
  by_cases hs : axis_selected a n = true
  · rw [if_pos hs]
    rcases h with ⟨hx0, hnone⟩ | ⟨hxpos, ⟨c, hc, hsel, hxc⟩, hle⟩
    · rw [if_pos (Or.inl hx0)]
      refine Or.inr ⟨hp hs, ⟨n, by omega, hs, rfl⟩, ?_⟩
      intro d hd hds
      rcases Nat.lt_succ_iff_lt_or_eq.mp hd with h1 | h1
      · rw [hnone d h1] at hds
        exact Bool.noConfusion hds
      · rw [h1]
    · by_cases hlt : rate n < x
      · rw [if_pos (Or.inr hlt)]
        refine Or.inr ⟨hp hs, ⟨n, by omega, hs, rfl⟩, ?_⟩
        intro d hd hds
        rcases Nat.lt_succ_iff_lt_or_eq.mp hd with h1 | h1
        · exact le_trans (le_of_lt hlt) (hle d h1 hds)
        · rw [h1]
      · rw [if_neg (by
          intro hor
          rcases hor with h0 | h1
          · exact absurd h0 (ne_of_gt hxpos)
          · exact hlt h1)]
        refine Or.inr ⟨hxpos, ⟨c, by omega, hsel, hxc⟩, ?_⟩
        intro d hd hds
        rcases Nat.lt_succ_iff_lt_or_eq.mp hd with h1 | h1
        · exact hle d h1 hds
        · rw [h1]
          exact not_lt.mp hlt
  · rw [if_neg hs]
    rcases h with ⟨hx0, hnone⟩ | ⟨hxpos, ⟨c, hc, hsel, hxc⟩, hle⟩
    · refine Or.inl ⟨hx0, ?_⟩
      intro d hd
      rcases Nat.lt_succ_iff_lt_or_eq.mp hd with h1 | h1
      · exact hnone d h1
      · rw [h1]
        simpa using hs
    · refine Or.inr ⟨hxpos, ⟨c, by omega, hsel, hxc⟩, ?_⟩
      intro d hd hds
      rcases Nat.lt_succ_iff_lt_or_eq.mp hd with h1 | h1
      · exact hle d h1 hds
      · rw [h1] at hds
        exact absurd hds hs

/-- When the first loop of `home` is over, `fastSpeed` is the least fast rate
and `stepPermm` the least steps per millimeter of the axes of the group (0 for
a group without axis), provided these are positive on the group. -/
theorem home_cadence_min (k : Kernel) (a : Nat) (w : World)
    (hpos : ∀ c, c < 3 → axis_selected a c = true →
      0 < w.self.fast_rates c ∧ 0 < k.steps_per_mm c) :
    cadence_min a 3 w.self.fast_rates (home_cadence k a w).1
      ∧ cadence_min a 3 k.steps_per_mm (home_cadence k a w).2 := by
  unfold home_cadence
  simp only [List.foldl]
  obtain ⟨s0, f0, m0⟩ := home_setup_values k a ((w.emit (Event.home a)).tick, 0, 0) 0
  obtain ⟨s1, f1, m1⟩ := home_setup_values k a
    (home_setup k a ((w.emit (Event.home a)).tick, 0, 0) 0) 1
  obtain ⟨s2, f2, m2⟩ := home_setup_values k a
    (home_setup k a (home_setup k a ((w.emit (Event.home a)).tick, 0, 0) 0) 1) 2
  generalize home_setup k a ((w.emit (Event.home a)).tick, 0, 0) 0 = st1 at *
  generalize home_setup k a st1 1 = st2 at *
  generalize home_setup k a st2 2 = st3 at *
  replace s0 : st1.1.self = w.self := s0
  replace f0 : st1.2.1 = (if axis_selected a 0 = true then
      (if (0 : ℚ) = 0 ∨ w.self.fast_rates 0 < 0 then w.self.fast_rates 0 else 0) else 0) := f0
  replace m0 : st1.2.2 = (if axis_selected a 0 = true then
      (if (0 : ℚ) = 0 ∨ k.steps_per_mm 0 < 0 then k.steps_per_mm 0 else 0) else 0) := m0
  rw [s0] at s1 f1
  rw [s1] at s2 f2
  have z : ∀ rate : Nat → ℚ, cadence_min a 0 rate 0 :=
    fun rate => Or.inl ⟨rfl, fun c hc => absurd hc (Nat.not_lt_zero c)⟩
  constructor
  · have c1 := cadence_min_step a 0 w.self.fast_rates 0 (z _) (fun h => (hpos 0 (by omega) h).1)
    rw [← f0] at c1
    have c2 := cadence_min_step a 1 w.self.fast_rates _ c1 (fun h => (hpos 1 (by omega) h).1)
    rw [← f1] at c2
    have c3 := cadence_min_step a 2 w.self.fast_rates _ c2 (fun h => (hpos 2 (by omega) h).1)
    rw [← f2] at c3
    exact c3
  · have c1 := cadence_min_step a 0 k.steps_per_mm 0 (z _) (fun h => (hpos 0 (by omega) h).2)
    rw [← m0] at c1
    have c2 := cadence_min_step a 1 k.steps_per_mm _ c1 (fun h => (hpos 1 (by omega) h).2)
    rw [← m1] at c2
    have c3 := cadence_min_step a 2 k.steps_per_mm _ c2 (fun h => (hpos 2 (by omega) h).2)
    rw [← m2] at c3
    exact c3

theorem group_nonempty (a : Nat) (h0 : 0 < a) (h8 : a < 8) :
    ∃ c, c < 3 ∧ axis_selected a c = true := by
  interval_cases a
  · exact ⟨0, by omega, by decide⟩
  · exact ⟨1, by omega, by decide⟩
  · exact ⟨0, by omega, by decide⟩
  · exact ⟨2, by omega, by decide⟩
  · exact ⟨0, by omega, by decide⟩
  · exact ⟨1, by omega, by decide⟩
  · exact ⟨0, by omega, by decide⟩

theorem cadence_min_attained {a : Nat} {rate : Nat → ℚ} {x : ℚ}
    (h : cadence_min a 3 rate x) (hne : ∃ c, c < 3 ∧ axis_selected a c = true) :
    (∃ c, c < 3 ∧ axis_selected a c = true ∧ x = rate c)
      ∧ ∀ c, c < 3 → axis_selected a c = true → x ≤ rate c := by
  rcases h with ⟨-, hnone⟩ | ⟨-, hex, hle⟩
  · obtain ⟨c, hc, hs⟩ := hne
    rw [hnone c hc] at hs
    exact Bool.noConfusion hs
  · exact ⟨hex, hle⟩

theorem cadence_min_unique {a : Nat} {rate rate2 : Nat → ℚ} {x y : ℚ}
    (hx : (∃ c, c < 3 ∧ axis_selected a c = true ∧ x = rate c)
      ∧ ∀ c, c < 3 → axis_selected a c = true → x ≤ rate c)
    (hy : (∃ c, c < 3 ∧ axis_selected a c = true ∧ y = rate2 c)
      ∧ ∀ c, c < 3 → axis_selected a c = true → y ≤ rate2 c)
    (hag : ∀ c, c < 3 → axis_selected a c = true → rate2 c = rate c) : y = x := by
  obtain ⟨⟨c, hc, hs, hxc⟩, hxle⟩ := hx
  obtain ⟨⟨d, hd, hds, hyd⟩, hyle⟩ := hy
  apply le_antisymm
  · rw [hxc, ← hag c hc hs]
    exact hyle c hc hs
  · rw [hyd, hag d hd hds]
    exact hxle d hd hds

/-- C16. For a non-empty group mask over the axes 0..2 whose axes all have
positive fast rates and positive steps per millimeter, the `fastSpeed` that
`home` computes is the least of the fast rates of the axes of the group and
`stepPermm` the least of their steps per millimeter (each is attained on the
group and is a lower bound on it); and neither depends on the values of an
axis outside the group. -/
theorem group_cadence (k : Kernel) (a : Nat) (w : World) (h0 : 0 < a) (h8 : a < 8)
    (hpos : ∀ c, c < 3 → axis_selected a c = true →
      0 < w.self.fast_rates c ∧ 0 < k.steps_per_mm c) :
    (∃ c, c < 3 ∧ axis_selected a c = true ∧ (home_cadence k a w).1 = w.self.fast_rates c)
      ∧ (∀ c, c < 3 → axis_selected a c = true → (home_cadence k a w).1 ≤ w.self.fast_rates c)
      ∧ (∃ c, c < 3 ∧ axis_selected a c = true ∧ (home_cadence k a w).2 = k.steps_per_mm c)
      ∧ (∀ c, c < 3 → axis_selected a c = true → (home_cadence k a w).2 ≤ k.steps_per_mm c)
      ∧ ∀ (k2 : Kernel) (w2 : World),
          (∀ c, c < 3 → axis_selected a c = true →
            w2.self.fast_rates c = w.self.fast_rates c
              ∧ k2.steps_per_mm c = k.steps_per_mm c) →
          home_cadence k2 a w2 = home_cadence k a w := by
  have hne := group_nonempty a h0 h8
  obtain ⟨hf, hm⟩ := home_cadence_min k a w hpos
  have af := cadence_min_attained hf hne
  have am := cadence_min_attained hm hne
  refine ⟨af.1, af.2, am.1, am.2, ?_⟩
  intro k2 w2 hag
  have hpos2 : ∀ c, c < 3 → axis_selected a c = true →
      0 < w2.self.fast_rates c ∧ 0 < k2.steps_per_mm c := by
    intro c hc hs
    rw [(hag c hc hs).1, (hag c hc hs).2]
    exact hpos c hc hs
  obtain ⟨hf2, hm2⟩ := home_cadence_min k2 a w2 hpos2
  have af2 := cadence_min_attained hf2 hne
  have am2 := cadence_min_attained hm2 hne
  exact Prod.ext (cadence_min_unique af af2 (fun c hc hs => (hag c hc hs).1))
    (cadence_min_unique am am2 (fun c hc hs => (hag c hc hs).2))

theorem group_cadence_witness :
    (home_cadence quiet_kernel 5 (loaded quiet_kernel (order_config []))).1
        ≤ (loaded quiet_kernel (order_config [])).self.fast_rates 2
      ∧ (home_cadence quiet_kernel 5 (loaded quiet_kernel (order_config []))).2
        ≤ quiet_kernel.steps_per_mm 0 :=
  ⟨(group_cadence quiet_kernel 5 (loaded quiet_kernel (order_config [])) (by decide) (by decide)
      (fun c hc _ => by
        interval_cases c <;>
          exact ⟨by with_unfolding_all decide, by with_unfolding_all decide⟩)).2.1 2
      (by decide) (by decide),
    (group_cadence quiet_kernel 5 (loaded quiet_kernel (order_config [])) (by decide) (by decide)
      (fun c hc _ => by
        interval_cases c <;>
          exact ⟨by with_unfolding_all decide, by with_unfolding_all decide⟩)).2.2.2.1 0
      (by decide) (by decide)⟩

/-! ## The fast approach as a whole -/

theorem fast_axis_congr (k k2 : Kernel) (a : Nat) (dir : Nat → Bool) (st : World × Bool)
    (d : Nat) (hd : d < 3) (hdir : st.1.self.home_direction = dir)
    (hpin : ∀ c, c < 3 → ∀ t,
      k2.pin_get (c + 3 * (if dir c = true then 0 else 1)) t
        = k.pin_get (c + 3 * (if dir c = true then 0 else 1)) t) :
    fast_axis k2 a st d = fast_axis k a st d := by
  unfold fast_axis
  simp only [hdir, hpin d hd]

theorem iteration_congr (k k2 : Kernel) (a : Nat) (dir : Nat → Bool) (w : World)
    (hdir : w.self.home_direction = dir)
    (hpin : ∀ c, c < 3 → ∀ t,
      k2.pin_get (c + 3 * (if dir c = true then 0 else 1)) t
        = k.pin_get (c + 3 * (if dir c = true then 0 else 1)) t) :
    iteration k2 a w = iteration k a w := by
  unfold iteration
  simp only [List.foldl]
  have e0 := fast_axis_congr k k2 a dir (w, false) 0 (by omega) hdir hpin
  have s0 := (fast_axis_in_home k a (w, false) 0).2.1
  have e1 := fast_axis_congr k k2 a dir (fast_axis k a (w, false) 0) 1 (by omega)
    (by rw [s0]; exact hdir) hpin
  have s1 := (fast_axis_in_home k a (fast_axis k a (w, false) 0) 1).2.1
  have e2 := fast_axis_congr k k2 a dir (fast_axis k a (fast_axis k a (w, false) 0) 1) 2
    (by omega) (by rw [s1, s0]; exact hdir) hpin
  rw [e0, e1, e2]

theorem fast_loop_congr (k k2 : Kernel) (a delay : Nat) (dir : Nat → Bool)
    (hhalt : k2.is_halted = k.is_halted)
    (hpin : ∀ c, c < 3 → ∀ t,
      k2.pin_get (c + 3 * (if dir c = true then 0 else 1)) t
        = k.pin_get (c + 3 * (if dir c = true then 0 else 1)) t) :
    ∀ (n : Nat) (moved : Bool) (w : World), w.self.home_direction = dir →
      fast_loop k2 a delay n moved w = fast_loop k a delay n moved w := by
  intro n
  induction n with
  | zero => intro moved w _; rfl
  | succ n ih =>
    intro moved w hdir
    cases moved with
    | false => rw [fast_loop_not_moved, fast_loop_not_moved]
    | true =>
      cases hh : k.is_halted w.polls with
      | true =>
        have hh2 : k2.is_halted w.polls = true := by rw [hhalt]; exact hh
        unfold fast_loop
        simp [hh, hh2]
      | false =>
        have hh2 : k2.is_halted w.polls = false := by rw [hhalt]; exact hh
        rw [fast_loop_unfold k a delay n w hh, fast_loop_unfold k2 a delay n w hh2,
          iteration_congr k k2 a dir w.tick hdir hpin]
        exact ih _ _ (by
          rw [emit_self, (iteration_in_group k a w.tick).2.1]
          exact hdir)

theorem home_setup_congr (k k2 : Kernel) (a : Nat) (st : World × ℚ × ℚ) (c : Nat)
    (hspm : k2.steps_per_mm = k.steps_per_mm) :
    home_setup k2 a st c = home_setup k a st c := by
  unfold home_setup
  rw [hspm]

/-- Two environments that agree on the halt flag, on the steps per millimeter
and on the homing-side pins of the three axes give the same run of `home`. -/
theorem home_congr (k k2 : Kernel) (a : Nat) (w : World)
    (hhalt : k2.is_halted = k.is_halted) (hspm : k2.steps_per_mm = k.steps_per_mm)
    (hpin : ∀ c, c < 3 → ∀ t,
      k2.pin_get (homing_pin w.self c) t = k.pin_get (homing_pin w.self c) t) :
    ActuatorHoming.home k2 a w = ActuatorHoming.home k a w := by
  cases hh : k.is_halted w.polls with
  | true =>
    have hh2 : k2.is_halted w.polls = true := by rw [hhalt]; exact hh
    unfold ActuatorHoming.home
    simp [hh, hh2]
  | false =>
    have hh2 : k2.is_halted w.polls = false := by rw [hhalt]; exact hh
    unfold ActuatorHoming.home
    dsimp only
    rw [if_neg (show ¬ (k2.is_halted (w.emit (Event.home a)).polls = true) by simp [hh2]),
      if_neg (show ¬ (k.is_halted (w.emit (Event.home a)).polls = true) by simp [hh])]
    simp only [List.foldl, home_setup_congr k k2 a _ _ hspm]
    have s0 := (home_setup_in_home k a ((w.emit (Event.home a)).tick, 0, 0) 0).1.2.1
    have s1 := (home_setup_in_home k a
      (home_setup k a ((w.emit (Event.home a)).tick, 0, 0) 0) 1).1.2.1
    have s2 := (home_setup_in_home k a
      (home_setup k a (home_setup k a ((w.emit (Event.home a)).tick, 0, 0) 0) 1) 2).1.2.1
    exact fast_loop_congr k k2 a _ w.self.home_direction hhalt hpin _ _ _ (by
      show (home_setup k a (home_setup k a (home_setup k a
        ((w.emit (Event.home a)).tick, 0, 0) 0) 1) 2).1.self.home_direction
          = w.self.home_direction
      rw [s2, s1, s0]
      rfl)

theorem mem_pulses_on {c : Nat} {d : Bool} {tr : List (Nat × Event)}
    (h : d ∈ pulses_on c tr) : ∃ t, (t, Event.manual_step c d) ∈ tr := by
  unfold pulses_on at h
  rw [List.mem_filterMap] at h
  obtain ⟨⟨t, ev⟩, hmem, hev⟩ := h
  cases ev with
  | manual_step a dir =>
    by_cases hac : a = c
    · simp [hac] at hev
      exact ⟨t, by rw [← hev, ← hac]; exact hmem⟩
    · simp [hac] at hev
  | _ => simp at hev

theorem mem_pin_reads {index : Nat} {tr : List (Nat × Event)}
    (h : index ∈ pin_reads tr) : ∃ t, (t, Event.pin_get index) ∈ tr := by
  unfold pin_reads at h
  rw [List.mem_filterMap] at h
  obtain ⟨⟨t, ev⟩, hmem, hev⟩ := h
  cases ev with
  | pin_get j =>
    simp at hev
    exact ⟨t, by rw [← hev]; exact hmem⟩
  | _ => simp at hev

/-! ## Claims about a sub-cycle -/

theorem read_poll_all (c p : Nat) (hc : c < 3) : read_poll 7 c p = p + c := by
  interval_cases c
  · rw [read_poll_zero]; rfl
  · rw [read_poll_one]; rfl
  · rw [read_poll_two]; rfl

/-- C15. In an iteration of the fast approach that is executed (entered from
the world `w` right after its halt check), every axis `c` of the group
receives exactly one pulse, in the direction `home_direction[c]`, iff its
homing-side endstop reads untriggered at its read in that iteration, and no
pulse otherwise.  The homing-side endstop is the min pin `pins[c]` when
`home_direction[c]` is true and the max pin `pins[c + 3]` when it is false.
Only homing-side pins of axes of the group are read, and an environment that
differs only on the other pins gives the same run of `home`. -/
theorem endstop_selection (k : Kernel) (a : Nat) (w : World) :
    (∀ c, c < 3 → axis_selected a c = true →
        pulses_on c (events_since w (iteration k a w).1)
          = if k.pin_get (homing_pin w.self c) (read_poll a c w.polls) = false
            then [w.self.home_direction c] else [])
      ∧ (∀ c, w.self.home_direction c = true → homing_pin w.self c = c)
      ∧ (∀ c, w.self.home_direction c = false → homing_pin w.self c = c + 3)
      ∧ (∀ index ∈ pin_reads (events_since w (iteration k a w).1),
          ∃ c, c < 3 ∧ axis_selected a c = true ∧ index = homing_pin w.self c)
      ∧ (∀ k2 : Kernel, k2.is_halted = k.is_halted → k2.steps_per_mm = k.steps_per_mm →
          (∀ c, c < 3 → ∀ t,
            k2.pin_get (homing_pin w.self c) t = k.pin_get (homing_pin w.self c) t) →
          ActuatorHoming.home k2 a w = ActuatorHoming.home k a w)
      ∧ (∀ (n delay : Nat) (w0 : World), k.is_halted w0.polls = false →
          fast_loop k a delay (n + 1) true w0
            = fast_loop k a delay n (iteration k a w0.tick).2
                ((iteration k a w0.tick).1.emit (Event.safe_delay_us delay))) := by
  obtain ⟨new, e, -, -, u, -, r, -, -⟩ := iteration_spec k a w
  have hev := events_since_eq new e
  refine ⟨?_, ?_, ?_, ?_, ?_, ?_⟩
  · intro c hc hs
    rw [hev, u c hc]
    by_cases hl : k.pin_get (homing_pin w.self c) (read_poll a c w.polls) = false
    · rw [if_pos ⟨hs, hl⟩, if_pos hl]
    · rw [if_neg (fun h => hl h.2), if_neg hl]
  · intro c hd
    simp [homing_pin, hd]
  · intro c hd
    simp [homing_pin, hd]
  · intro index hi
    rw [hev, r] at hi
    rcases List.mem_append.mp hi with h | h
    · rcases List.mem_append.mp h with h | h
      · by_cases hs : axis_selected a 0 = true
        · rw [if_pos hs] at h
          exact ⟨0, by omega, hs, by simpa using h⟩
        · rw [if_neg hs] at h
          simp at h
      · by_cases hs : axis_selected a 1 = true
        · rw [if_pos hs] at h
          exact ⟨1, by omega, hs, by simpa using h⟩
        · rw [if_neg hs] at h
          simp at h
    · by_cases hs : axis_selected a 2 = true
      · rw [if_pos hs] at h
        exact ⟨2, by omega, hs, by simpa using h⟩
      · rw [if_neg hs] at h
        simp at h
  · intro k2 hhalt hspm hpin
    exact home_congr k k2 a w hhalt hspm hpin
  · intro n delay w0 hh
    exact fast_loop_unfold k a delay n w0 hh

/-- C18. For every group mask, a call of `home` sets no direction and emits no
pulse on an axis whose bit is not set in the mask, reads neither endstop pin
of such an axis, and leaves `homing_position`, `homing_order`,
`home_direction`, `fast_rates`, `slow_rates` and `retract_mm` unchanged: the
only member of the controller it may change is `status`. -/
theorem home_frame (k : Kernel) (a : Nat) (w : World) :
    (∀ e ∈ events_since w (ActuatorHoming.home k a w), ∀ c, axis_selected a c = false →
        (∀ d, e.2 ≠ Event.set_direction c d) ∧ (∀ d, e.2 ≠ Event.manual_step c d)
          ∧ (c < 3 → e.2 ≠ Event.pin_get c ∧ e.2 ≠ Event.pin_get (c + 3)))
      ∧ (ActuatorHoming.home k a w).self
          = { w.self with status := (ActuatorHoming.home k a w).self.status }
      ∧ (ActuatorHoming.home k a w).self.homing_position = w.self.homing_position
      ∧ (ActuatorHoming.home k a w).self.homing_order = w.self.homing_order
      ∧ (ActuatorHoming.home k a w).self.home_direction = w.self.home_direction
      ∧ (ActuatorHoming.home k a w).self.fast_rates = w.self.fast_rates
      ∧ (ActuatorHoming.home k a w).self.slow_rates = w.self.slow_rates
      ∧ (ActuatorHoming.home k a w).self.retract_mm = w.self.retract_mm := by
  obtain ⟨new, e, hg⟩ := home_group k a w
  have hev := events_since_eq _ e
  have hself := home_self_cases k a w
  refine ⟨?_, ?_, ?_, ?_, ?_, ?_, ?_, ?_⟩
  · intro ev hmem c hs
    rw [hev] at hmem
    rcases List.mem_cons.mp hmem with rfl | hmem
    · exact ⟨fun d h => Event.noConfusion h, fun d h => Event.noConfusion h,
        fun _ => ⟨fun h => Event.noConfusion h, fun h => Event.noConfusion h⟩⟩
    · have hge := hg ev hmem
      obtain ⟨t, x⟩ := ev
      cases x with
      | set_direction c1 d1 =>
        refine ⟨?_, fun d h => Event.noConfusion h,
          fun _ => ⟨fun h => Event.noConfusion h, fun h => Event.noConfusion h⟩⟩
        intro d h
        injection h with h1 h2
        rw [h1] at hge
        rw [hge.2.1] at hs
        exact Bool.noConfusion hs
      | manual_step c1 d1 =>
        refine ⟨fun d h => Event.noConfusion h, ?_,
          fun _ => ⟨fun h => Event.noConfusion h, fun h => Event.noConfusion h⟩⟩
        intro d h
        injection h with h1 h2
        rw [h1] at hge
        rw [hge.2.1] at hs
        exact Bool.noConfusion hs
      | pin_get index =>
        refine ⟨fun d h => Event.noConfusion h, fun d h => Event.noConfusion h, ?_⟩
        intro hc
        obtain ⟨c1, hc1, hs1, hidx⟩ := hge
        constructor
        · intro h
          injection h with h1
          have hcc : c1 = c := by
            rw [h1] at hidx
            split at hidx <;> omega
          rw [hcc, hs] at hs1
          exact Bool.noConfusion hs1
        · intro h
          injection h with h1
          have hcc : c1 = c := by
            rw [h1] at hidx
            split at hidx <;> omega
          rw [hcc, hs] at hs1
          exact Bool.noConfusion hs1
      | _ =>
        exact ⟨fun d h => Event.noConfusion h, fun d h => Event.noConfusion h,
          fun _ => ⟨fun h => Event.noConfusion h, fun h => Event.noConfusion h⟩⟩
  all_goals rcases hself with h | h <;> rw [h]

/-! ## The states the controller can reach -/

theorem process_self_cases (k : Kernel) (w : World) :
    (ActuatorHoming.process_home_command k w).self = w.self
      ∨ (ActuatorHoming.process_home_command k w).self
          = { w.self with status := Status.MOVING_TO_ENDSTOP_FAST } := by
  obtain ⟨w1, new, -, -, -, -, s1, -, hp⟩ := cycle_spec k w
  have h : (ActuatorHoming.process_home_command k w).self = w1.self := by
    rw [hp]
    split
    · split <;> rfl
    · rfl
  rw [h]
  exact s1

theorem apply_status (k : Kernel) (op : Op) (w : World)
    (h : w.self.status = Status.NOT_HOMING ∨ w.self.status = Status.MOVING_TO_ENDSTOP_FAST) :
    (op.apply k w).self.status = Status.NOT_HOMING
      ∨ (op.apply k w).self.status = Status.MOVING_TO_ENDSTOP_FAST := by
  cases op with
  | load_config cfg => exact h
  | gcode_received gcode =>
    show (ActuatorHoming.on_gcode_received k gcode w).self.status = Status.NOT_HOMING
      ∨ (ActuatorHoming.on_gcode_received k gcode w).self.status
          = Status.MOVING_TO_ENDSTOP_FAST
    unfold ActuatorHoming.on_gcode_received
    by_cases hg : (gcode.has_g && gcode.g == 28) = true
    · rw [if_pos hg]
      rcases process_self_cases k w with h1 | h1
      · rw [h1]; exact h
      · rw [h1]; exact Or.inr rfl
    · rw [if_neg hg]
      exact h
  | get_public_data => exact h

theorem run_status (k : Kernel) (ops : List Op) :
    ∀ w : World,
      (w.self.status = Status.NOT_HOMING ∨ w.self.status = Status.MOVING_TO_ENDSTOP_FAST) →
      ((run k ops w).self.status = Status.NOT_HOMING
        ∨ (run k ops w).self.status = Status.MOVING_TO_ENDSTOP_FAST) := by
  induction ops with
  | nil => intro w h; exact h
  | cons op rest ih =>
    intro w h
    exact ih (op.apply k w) (apply_status k op w h)

/-- C17. In every state reached from the constructed controller by a sequence
of configuration loads, received G-codes (homing cycles among them) and status
requests, `status` is `NOT_HOMING` or `MOVING_TO_ENDSTOP_FAST`, never one of
the five other states.  And every pulse a call of `home` emits on an axis `c`
is in the direction `home_direction[c]`; a call of `home` leaves `status` as it
was or sets it to `MOVING_TO_ENDSTOP_FAST`. -/
theorem later_phases_unreachable (k : Kernel) (members : ActuatorHoming) (ops : List Op) :
    ((run k ops (constructed members)).self.status = Status.NOT_HOMING
        ∨ (run k ops (constructed members)).self.status = Status.MOVING_TO_ENDSTOP_FAST)
      ∧ (run k ops (constructed members)).self.status ≠ Status.MOVING_BACK
      ∧ (run k ops (constructed members)).self.status ≠ Status.MOVING_TO_ENDSTOP_SLOW
      ∧ (run k ops (constructed members)).self.status ≠ Status.BACK_OFF_HOME
      ∧ (run k ops (constructed members)).self.status ≠ Status.MOVE_TO_ORIGIN
      ∧ (run k ops (constructed members)).self.status ≠ Status.LIMIT_TRIGGERED
      ∧ (∀ (a : Nat) (w : World) (c : Nat) (d : Bool),
          d ∈ pulses_on c (events_since w (ActuatorHoming.home k a w)) →
          d = w.self.home_direction c)
      ∧ (∀ (a : Nat) (w : World),
          (ActuatorHoming.home k a w).self.status = w.self.status
            ∨ (ActuatorHoming.home k a w).self.status = Status.MOVING_TO_ENDSTOP_FAST) := by
  have hst := run_status k ops (constructed members) (Or.inl rfl)
  refine ⟨hst, ?_, ?_, ?_, ?_, ?_, ?_, ?_⟩
  · rcases hst with h | h <;> rw [h] <;> decide
  · rcases hst with h | h <;> rw [h] <;> decide
  · rcases hst with h | h <;> rw [h] <;> decide
  · rcases hst with h | h <;> rw [h] <;> decide
  · rcases hst with h | h <;> rw [h] <;> decide
  · intro a w c d hd
    obtain ⟨new, e, hg⟩ := home_group k a w
    rw [events_since_eq _ e] at hd
    obtain ⟨t, hmem⟩ := mem_pulses_on hd
    rcases List.mem_cons.mp hmem with h | h
    · injection h with h1 h2
      exact Event.noConfusion h2
    · exact (hg _ h).2.2
  · intro a w
    rcases home_self_cases k a w with h | h
    · exact Or.inl (by rw [h])
    · exact Or.inr (by rw [h])

/-! ## The groups of a cycle and the request -/

theorem on_gcode_g28 (k : Kernel) (gcode : Gcode) (w : World) (hg : gcode.has_g = true)
    (h28 : gcode.g = 28) :
    ActuatorHoming.on_gcode_received k gcode w = ActuatorHoming.process_home_command k w := by
  unfold ActuatorHoming.on_gcode_received
  simp [hg, h28]

/-- C13, counterexample.  The command `G28 X` names the X axis only (requested
mask 1).  With `homing_order` the unordered sentinel, the cycle runs one
sub-cycle, `home(7)`, and it steps the Y and the Z axis as well. -/
theorem group_selection_counterexample :
    requested_axis_mask g28_x = 1
      ∧ (loaded approach_kernel (order_config [])).self.homing_order = 0
      ∧ home_calls (events_since (loaded approach_kernel (order_config []))
          (ActuatorHoming.on_gcode_received approach_kernel g28_x
            (loaded approach_kernel (order_config [])))) = [(0, 7)]
      ∧ pulses_on 1 (events_since (loaded approach_kernel (order_config []))
          (ActuatorHoming.on_gcode_received approach_kernel g28_x
            (loaded approach_kernel (order_config [])))) = [true]
      ∧ pulses_on 2 (events_since (loaded approach_kernel (order_config []))
          (ActuatorHoming.on_gcode_received approach_kernel g28_x
            (loaded approach_kernel (order_config [])))) = [true] := by
  with_unfolding_all decide

/-- C13, amended.  A homing request (a G-code `G28`, whatever axis letters it
carries) runs, when `homing_order` is the unordered sentinel, exactly one
sub-cycle, `home(7)`, whose mask selects all three axes, every one of them
being read and stepped within each iteration of that sub-cycle; when
`homing_order` is not the sentinel, it runs only sub-cycles with a single-bit
mask (1, 2 or 4 when the order was produced by `load_config`), one after
another. -/
theorem group_selection_amended (k : Kernel) (w : World) (gcode : Gcode)
    (hg : gcode.has_g = true) (h28 : gcode.g = 28) :
    (w.self.homing_order = 0 →
        home_calls (events_since w (ActuatorHoming.on_gcode_received k gcode w))
            = [(w.polls, 7)]
          ∧ (∀ c, c < 3 → axis_selected 7 c = true)
          ∧ ∀ (w2 : World) (c : Nat), c < 3 →
              pulses_on c (events_since w2 (iteration k 7 w2).1)
                = if k.pin_get (homing_pin w2.self c) (w2.polls + c) = false
                  then [w2.self.home_direction c] else [])
      ∧ (w.self.homing_order ≠ 0 →
          ∀ c ∈ home_calls (events_since w (ActuatorHoming.on_gcode_received k gcode w)),
            c.2 = 1 ∨ c.2 = 2 ∨ c.2 = 4 ∨ c.2 = 8)
      ∧ (w.self.homing_order ≠ 0 →
          ∀ order, w.self.homing_order = parse_homing_order order →
          ∀ c ∈ home_calls (events_since w (ActuatorHoming.on_gcode_received k gcode w)),
            c.2 = 1 ∨ c.2 = 2 ∨ c.2 = 4) := by
  rw [on_gcode_g28 k gcode w hg h28]
  obtain ⟨w1, new, -, -, m1, -, hcalls, -, -⟩ := cycle_end k w
  refine ⟨?_, ?_, ?_⟩
  · intro hz
    rw [if_pos hz] at m1
    refine ⟨by rw [hcalls, m1], ?_, ?_⟩
    · intro c hc
      interval_cases c <;> decide
    · intro w2 c hc
      obtain ⟨n2, e2, -, -, u, -, -, -, -⟩ := iteration_spec k 7 w2
      have hsel : axis_selected 7 c = true := by interval_cases c <;> decide
      rw [events_since_eq n2 e2, u c hc, read_poll_all c w2.polls hc]
      by_cases hl : k.pin_get (homing_pin w2.self c) (w2.polls + c) = false
      · rw [if_pos ⟨hsel, hl⟩, if_pos hl]
      · rw [if_neg (fun h => hl h.2), if_neg hl]
  · intro hnz
    rw [if_neg hnz] at m1
    rw [hcalls]
    exact m1
  · intro hnz order ho
    exact (cycle_calls_loaded k w order ho).1 hnz

theorem group_selection_amended_witness :
    home_calls (events_since (loaded approach_kernel (order_config []))
        (ActuatorHoming.on_gcode_received approach_kernel g28_x
          (loaded approach_kernel (order_config []))))
      = [((loaded approach_kernel (order_config [])).polls, 7)] :=
  ((group_selection_amended approach_kernel (loaded approach_kernel (order_config [])) g28_x
    rfl rfl).1 (by decide)).1

end Smoothie
